import Mathlib

/-!
Verification of the pyquokka executor core (src/pyquokka/executors.py) against its
natural-language specification.

The executors operate on columnar batches.  We embed a batch as a `List` of rows
(row types vary per executor; where only row counts matter the row type is a type
parameter).  Python-level failures (raised exceptions) are embedded as `Except PyErr`
results.  All definitions are translated from the source file; definitions that
formalise a *claim's wording* (for refutation) are named `claim...Spec`.
-/

namespace Quokka

/-- Kinds of Python exceptions the embedded code can raise. -/
inductive PyErr where
  /-- AttributeError, e.g. calling a method on `None` or accessing a missing attribute. -/
  | attributeError
  /-- AssertionError from a failed `assert`. -/
  | assertionError
  /-- pyarrow error raised by `pa.concat_tables([])` ("Must pass at least one table"). -/
  | valueError
  /-- TypeError, e.g. `len(None)` or passing `None` where a table is required. -/
  | typeError
  /-- IndexError / out-of-bounds series access such as `batch[col][0]` on an empty frame. -/
  | indexError
  /-- duckdb binder error: SQL references a column absent from the input table. -/
  | binderError
  /-- The bare `raise Exception` in `SuperFastSortExecutor.done` (spill file exhausted). -/
  | mergeExhausted
  deriving DecidableEq, Repr

/-- Embedding of `pa.concat_tables(batches)`: errors on an empty list and on a `None`
entry, otherwise concatenates. -/
def paConcatTables {α : Type} (batches : List (Option (List α))) : Except PyErr (List α) :=
  if batches.isEmpty then .error .valueError
  else if batches.any (fun b => b.isNone) then .error .typeError
  else .ok (batches.filterMap id).flatten

/-- Embedding of the recurring filter
`[i for i in batches if i is not None and len(i) > 0]`. -/
def cleanBatches {α : Type} (batches : List (Option (List α))) : List (List α) :=
  (batches.filterMap id).filter (fun b => b.length > 0)

/-- Auxiliary for `chunksOf`, with explicit fuel (the fuel is only a termination
device; any fuel at least the list length gives the same result). -/
def chunksOfGo {α : Type} (B : Nat) : Nat → List α → List (List α)
  | 0, _ => []
  | _, [] => []
  | fuel+1, a :: l => ((a :: l).take B) :: chunksOfGo B fuel ((a :: l).drop B)

/-- Embedding of slicing a sequence into consecutive chunks of `B` rows
(`for i in range(0, len(x), B): x[i : i + B]`, and equally
`write_batch[i : i + row_group_size]`). -/
def chunksOf {α : Type} (B : Nat) (l : List α) : List (List α) :=
  if B = 0 then [] else chunksOfGo B l.length l

theorem chunksOfGo_congr {α : Type} (B : Nat) (hB : 0 < B) :
    ∀ (fuel fuel' : Nat) (l : List α), l.length ≤ fuel → l.length ≤ fuel' →
      chunksOfGo B fuel l = chunksOfGo B fuel' l := by
  intro fuel
  induction fuel with
  | zero =>
    intro fuel' l hl hl'
    have : l = [] := List.eq_nil_of_length_eq_zero (Nat.le_zero.mp hl)
    subst this
    cases fuel' <;> rfl
  | succ f ih =>
    intro fuel' l hl hl'
    cases l with
    | nil => cases fuel' <;> rfl
    | cons a t =>
      cases fuel' with
      | zero => simp at hl'
      | succ f' =>
        simp only [chunksOfGo]
        congr 1
        apply ih
        · simp only [List.length_drop] at *
          simp at hl ⊢
          omega
        · simp only [List.length_drop] at *
          simp at hl' ⊢
          omega

theorem chunksOf_nil {α : Type} (B : Nat) : chunksOf B ([] : List α) = [] := by
  unfold chunksOf
  split <;> rfl

theorem chunksOf_cons_eq {α : Type} (B : Nat) (hB : 0 < B) (l : List α) (hl : l ≠ []) :
    chunksOf B l = l.take B :: chunksOf B (l.drop B) := by
  cases l with
  | nil => exact absurd rfl hl
  | cons a t =>
    unfold chunksOf
    have hBne : ¬ B = 0 := Nat.pos_iff_ne_zero.mp hB
    simp only [hBne, if_false]
    simp only [List.length_cons, chunksOfGo]
    congr 1
    apply chunksOfGo_congr B hB
    · simp [List.length_drop]
      omega
    · simp [List.length_drop]

theorem chunksOfGo_flatten {α : Type} (B : Nat) (hB : 0 < B) :
    ∀ (fuel : Nat) (l : List α), l.length ≤ fuel → (chunksOfGo B fuel l).flatten = l := by
  intro fuel
  induction fuel with
  | zero =>
    intro l hl
    have : l = [] := List.eq_nil_of_length_eq_zero (Nat.le_zero.mp hl)
    subst this
    rfl
  | succ f ih =>
    intro l hl
    cases l with
    | nil => rfl
    | cons a t =>
      simp only [chunksOfGo, List.flatten_cons]
      rw [ih _ (by simp [List.length_drop] at *; omega), List.take_append_drop]

theorem chunksOf_flatten {α : Type} (B : Nat) (hB : 0 < B) (l : List α) :
    (chunksOf B l).flatten = l := by
  unfold chunksOf
  simp only [Nat.pos_iff_ne_zero.mp hB, if_false]
  exact chunksOfGo_flatten B hB l.length l le_rfl

theorem chunksOfGo_mem {α : Type} (B : Nat) (hB : 0 < B) :
    ∀ (fuel : Nat) (l : List α), l.length ≤ fuel →
      ∀ c ∈ chunksOfGo B fuel l, c.length ≤ B ∧ c ≠ [] := by
  intro fuel
  induction fuel with
  | zero =>
    intro l hl
    have : l = [] := List.eq_nil_of_length_eq_zero (Nat.le_zero.mp hl)
    subst this
    simp [chunksOfGo]
  | succ f ih =>
    intro l hl
    cases l with
    | nil => simp [chunksOfGo]
    | cons a t =>
      simp only [chunksOfGo]
      intro c hc
      rcases List.mem_cons.mp hc with h | h
      · subst h
        refine ⟨by simp [List.length_take], ?_⟩
        have : ((a :: t).take B).length = min B (t.length + 1) := by simp [List.length_take]
        intro hemp
        rw [hemp] at this
        simp at this
        omega
      · exact ih _ (by simp [List.length_drop] at *; omega) c h

theorem chunksOf_mem_length_le {α : Type} (B : Nat) (hB : 0 < B) (l : List α) :
    ∀ c ∈ chunksOf B l, c.length ≤ B ∧ c ≠ [] := by
  unfold chunksOf
  simp only [Nat.pos_iff_ne_zero.mp hB, if_false]
  exact chunksOfGo_mem B hB l.length l le_rfl

theorem chunksOfGo_exact {α : Type} (B : Nat) (hB : 0 < B) :
    ∀ (fuel : Nat) (l : List α), l.length ≤ fuel → l.length % B = 0 →
      (∀ c ∈ chunksOfGo B fuel l, c.length = B) ∧
        (chunksOfGo B fuel l).length * B = l.length := by
  intro fuel
  induction fuel with
  | zero =>
    intro l hl _
    have : l = [] := List.eq_nil_of_length_eq_zero (Nat.le_zero.mp hl)
    subst this
    simp [chunksOfGo]
  | succ f ih =>
    intro l hl hmod
    cases l with
    | nil => simp [chunksOfGo]
    | cons a t =>
      have hge : B ≤ (a :: t).length := by
        rcases Nat.lt_or_ge (a :: t).length B with h | h
        · rw [Nat.mod_eq_of_lt h] at hmod
          simp at hmod
        · exact h
      have hdroplen : ((a :: t).drop B).length = (a :: t).length - B := by
        simp [List.length_drop]
      obtain ⟨ihall, ihlen⟩ := ih ((a :: t).drop B)
        (by rw [hdroplen]; simp at hl ⊢; omega)
        (by rw [hdroplen, ← Nat.mod_eq_sub_mod hge]; exact hmod)
      simp only [chunksOfGo]
      constructor
      · intro c hc
        rcases List.mem_cons.mp hc with h | h
        · subst h
          simp only [List.length_cons] at hge
          simp [List.length_take]
          omega
        · exact ihall c h
      · rw [List.length_cons, Nat.add_mul, one_mul, ihlen, hdroplen]
        simp only [List.length_cons] at hge ⊢
        omega

theorem chunksOf_exact {α : Type} (B : Nat) (hB : 0 < B) (l : List α) (hmod : l.length % B = 0) :
    (∀ c ∈ chunksOf B l, c.length = B) ∧ (chunksOf B l).length * B = l.length := by
  unfold chunksOf
  simp only [Nat.pos_iff_ne_zero.mp hB, if_false]
  exact chunksOfGo_exact B hB l.length l le_rfl hmod

theorem chunksOf_count {α : Type} (B : Nat) (hB : 0 < B) (l : List α) (hmod : l.length % B = 0) :
    (chunksOf B l).length = l.length / B := by
  have h := (chunksOf_exact B hB l hmod).2
  rw [← h]
  exact (Nat.mul_div_cancel _ hB).symm

theorem chunksOf_single {α : Type} (B : Nat) (hB : 0 < B) (l : List α) (hne : l ≠ [])
    (hle : l.length ≤ B) : chunksOf B l = [l] := by
  rw [chunksOf_cons_eq B hB l hne, List.take_of_length_le hle,
    List.drop_eq_nil_of_le hle, chunksOf_nil]


/-! ## OutputExecutor (src/pyquokka/executors.py lines 360-444)

Rows are an arbitrary type `α`; a pyarrow table is a `List α`.  A written file is a
`(filename, rows)` pair.  The directory component (`self.filepath + "/"`) is common to
every written file and is omitted from the embedded names; the returned manifest in the
source contains bare names with no directory either. -/

namespace OutputExecutor

/-- Mutable state of `OutputExecutor`: the buffered batches `self.my_batches` and the
monotonic file counter `self.name`. -/
structure OState (α : Type) where
  myBatches : List (List α)
  name : Nat
  deriving Repr

/-- Fresh `OutputExecutor` state (`self.my_batches = []`, `self.name = 0`). -/
def initState (α : Type) : OState α := ⟨[], 0⟩

/-- The name under which `upload_write_batch` writes its `n`-th file:
`prefix-executor_id-name.format`. -/
def writtenFileName (filePrefix : String) (eid n : Nat) (fmt : String) : String :=
  filePrefix ++ "-" ++ toString eid ++ "-" ++ toString n ++ "." ++ fmt

/-- The names listed in the manifests built by `execute` and `done`:
`prefix-executor_id-name-i.format` (note the extra `-i` component and that `self.name`
has already been advanced by `upload_write_batch` when the manifest is built). -/
def manifestFileName (filePrefix : String) (eid n i : Nat) (fmt : String) : String :=
  filePrefix ++ "-" ++ toString eid ++ "-" ++ toString n ++ "-" ++ toString i ++ "." ++ fmt

/-- Embedding of `OutputExecutor.upload_write_batch`: slice `write_batch` into row
groups of `row_group_size` rows (`write_batch[i : i + self.row_group_size]`), write
each slice as one file named with the current `self.name`, incrementing `self.name`
per file.  Returns the written `(filename, rows)` pairs and the new counter. -/
def uploadWriteBatch {α : Type} (R : Nat) (filePrefix fmt : String) (eid : Nat)
    (writeBatch : List α) (nm : Nat) : List (String × List α) × Nat :=
  let chunks := chunksOf R writeBatch
  (chunks.enum.map (fun p => (writtenFileName filePrefix eid (nm + p.1) fmt, p.2)),
    nm + chunks.length)

/-- Embedding of `np.cumsum`: entry `i` is the sum of the first `i+1` entries. -/
def cumsum (l : List Nat) : List Nat :=
  (List.range l.length).map (fun i => (l.take (i+1)).sum)

/-- Embedding of `OutputExecutor.execute`.  Returns the new state, the optional
manifest dataframe (a list of filename strings), and the files actually written
during the call. -/
def execute {α : Type} (R : Nat) (filePrefix fmt : String) (st : OState α)
    (batches : List (Option (List α))) (eid : Nat) :
    OState α × Option (List String) × List (String × List α) :=
  let myB := st.myBatches ++ cleanBatches batches
  let lengths := myB.map List.length
  let total := lengths.sum
  if total ≤ R then (⟨myB, st.name⟩, none, [])
  else
    let writeLen := total / R * R
    let fullBatchesToTake := (cumsum lengths).findIdx (fun c => decide (writeLen ≤ c))
    let writeBatch0 := (myB.take fullBatchesToTake).flatten
    let rowsToTake := writeLen - (lengths.take fullBatchesToTake).sum
    let rest := myB.drop fullBatchesToTake
    let writeBatch :=
      if 0 < rowsToTake then writeBatch0 ++ (rest.headD []).take rowsToTake else writeBatch0
    let rest2 :=
      if 0 < rowsToTake then (rest.headD []).drop rowsToTake :: rest.tail else rest
    let wr := uploadWriteBatch R filePrefix fmt eid writeBatch st.name
    let manifest := (List.range (writeBatch.length / R)).map
      (fun i => manifestFileName filePrefix eid wr.2 i fmt)
    (⟨rest2, wr.2⟩, some manifest, wr.1)

/-- Embedding of `OutputExecutor.done`: `pa.concat_tables(self.my_batches)` raises on
an empty list; otherwise the whole buffer is flushed through `upload_write_batch` and
a manifest of `(len(df) - 1) // row_group_size + 1` names is returned (Python floor
division, hence 0 names when the buffer holds 0 rows). -/
def done {α : Type} (R : Nat) (filePrefix fmt : String) (st : OState α) (eid : Nat) :
    Except PyErr (List String × List (String × List α)) :=
  if st.myBatches.isEmpty then .error .valueError
  else
    let df := st.myBatches.flatten
    let wr := uploadWriteBatch R filePrefix fmt eid df st.name
    let manifestLen := (((df.length : Int) - 1).fdiv (R : Int) + 1).toNat
    let manifest := (List.range manifestLen).map
      (fun i => manifestFileName filePrefix eid wr.2 i fmt)
    .ok (manifest, wr.1)

/-- Run a sequence of `execute` calls from a given state, accumulating all files
written (this models the call protocol: one `execute` per delivered batch list). -/
def runFrom {α : Type} (R : Nat) (filePrefix fmt : String) (eid : Nat) :
    OState α → List (List (Option (List α))) → OState α × List (String × List α)
  | st, [] => (st, [])
  | st, c :: cs =>
    let e := execute R filePrefix fmt st c eid
    let r := runFrom R filePrefix fmt eid e.1 cs
    (r.1, e.2.2 ++ r.2)

/-- Run a sequence of `execute` calls on a fresh executor. -/
def runExecute {α : Type} (R : Nat) (filePrefix fmt : String) (eid : Nat)
    (calls : List (List (Option (List α)))) : OState α × List (String × List α) :=
  runFrom R filePrefix fmt eid (initState α) calls

/-- Total number of rows delivered to the executor over a sequence of calls
(`None` entries and empty batches contribute nothing). -/
def totalRows {α : Type} (calls : List (List (Option (List α)))) : Nat :=
  (calls.map (fun c => ((cleanBatches c).map List.length).sum)).sum

end OutputExecutor


namespace OutputExecutor

/-- Total number of rows currently buffered in `self.my_batches`. -/
def sumB {α : Type} (st : OState α) : Nat := (st.myBatches.map List.length).sum

theorem cumsum_getElem (l : List Nat) (j : Nat) (h : j < (cumsum l).length) :
    (cumsum l).get ⟨j, h⟩ = (l.take (j+1)).sum := by
  simp [cumsum] at h ⊢

theorem cumsum_length (l : List Nat) : (cumsum l).length = l.length := by
  simp [cumsum]

theorem findIdx_getD_true {α : Type} (p : α → Bool) (d : α) :
    ∀ (xs : List α), xs.findIdx p < xs.length → p (xs.getD (xs.findIdx p) d) = true := by
  intro xs
  induction xs with
  | nil =>
    intro h
    simp at h
  | cons a t ih =>
    intro h
    by_cases hpa : p a = true
    · simp [List.findIdx_cons, hpa]
    · rw [Bool.not_eq_true] at hpa
      simp only [List.findIdx_cons, hpa, cond_false] at h ⊢
      simp only [List.length_cons] at h
      simpa [List.getD_cons_succ] using ih (by omega)

theorem findIdx_getD_false {α : Type} (p : α → Bool) (d : α) :
    ∀ (xs : List α) (j : Nat), j < xs.findIdx p → p (xs.getD j d) = false := by
  intro xs
  induction xs with
  | nil =>
    intro j h
    simp [List.findIdx_nil] at h
  | cons a t ih =>
    intro j h
    by_cases hpa : p a = true
    · simp [List.findIdx_cons, hpa] at h
    · rw [Bool.not_eq_true] at hpa
      simp only [List.findIdx_cons, hpa, cond_false] at h
      cases j with
      | zero => simpa [List.getD_cons_zero] using hpa
      | succ k => simpa [List.getD_cons_succ] using ih k (by omega)

theorem cumsum_getD (l : List Nat) (j : Nat) (hj : j < l.length) :
    (cumsum l).getD j 0 = (l.take (j+1)).sum := by
  rw [List.getD_eq_getElem _ _ (show j < (cumsum l).length by simpa [cumsum] using hj)]
  simp [cumsum]

/-- Facts about the batch-boundary arithmetic in `OutputExecutor.execute`
(`np.cumsum`, `np.where(... >= write_len)[0][0]`, `rows_to_take`): the sliced-out
`write_batch` has exactly `write_len` rows, the rows of the buffer split into
`write_batch` followed by the retained remainder, and the remainder holds
`total - write_len` rows. -/
theorem sliceFacts {α : Type} (myB : List (List α)) (writeLen i rowsToTake : Nat)
    (hpos : 0 < writeLen) (hle : writeLen ≤ (myB.map List.length).sum)
    (hi : i = (cumsum (myB.map List.length)).findIdx (fun c => decide (writeLen ≤ c)))
    (hrtt : rowsToTake = writeLen - ((myB.map List.length).take i).sum) :
    0 < rowsToTake ∧
    ((myB.take i).flatten ++ ((myB.drop i).headD []).take rowsToTake).length = writeLen ∧
    (((myB.take i).flatten ++ ((myB.drop i).headD []).take rowsToTake)
      ++ ((((myB.drop i).headD []).drop rowsToTake) :: (myB.drop i).tail).flatten
      = myB.flatten) ∧
    (((((myB.drop i).headD []).drop rowsToTake) :: (myB.drop i).tail).map List.length).sum
      = (myB.map List.length).sum - writeLen := by
  have hMpos : 0 < myB.length := by
    rcases myB with _ | ⟨b, bs⟩
    · simp at hle
      omega
    · simp
  have hcl : (cumsum (myB.map List.length)).length = myB.length := by
    simp [cumsum_length]
  have hex : ∃ x ∈ cumsum (myB.map List.length), (fun c => decide (writeLen ≤ c)) x = true := by
    refine ⟨(cumsum (myB.map List.length)).getD (myB.length - 1) 0, ?_, ?_⟩
    · rw [List.getD_eq_getElem _ _ (by omega)]
      exact List.getElem_mem _
    · rw [cumsum_getD _ _ (by simp; omega)]
      have h9 : myB.length - 1 + 1 = (myB.map List.length).length := by simp; omega
      rw [h9, List.take_length]
      simpa using hle
  have hw : (cumsum (myB.map List.length)).findIdx (fun c => decide (writeLen ≤ c))
      < (cumsum (myB.map List.length)).length :=
    List.findIdx_lt_length_of_exists hex
  have hiL : i < myB.length := by
    rw [hi, ← hcl]
    exact hw
  have hiL2 : i < (myB.map List.length).length := by simpa using hiL
  have hple : writeLen ≤ ((myB.map List.length).take (i+1)).sum := by
    have hval := findIdx_getD_true (fun c => decide (writeLen ≤ c)) 0
      (cumsum (myB.map List.length)) hw
    rw [← hi, cumsum_getD _ _ hiL2] at hval
    simpa using hval
  have hbefore : ((myB.map List.length).take i).sum < writeLen := by
    cases hicase : i with
    | zero => simpa using hpos
    | succ j =>
      have hval := findIdx_getD_false (fun c => decide (writeLen ≤ c)) 0
        (cumsum (myB.map List.length)) j (by rw [← hi]; omega)
      rw [cumsum_getD _ _ (by simp; omega)] at hval
      simp only [decide_eq_false_iff_not, not_le] at hval
      simpa [← hicase] using hval
  have h0 : 0 < rowsToTake := by omega
  have hsts : ((myB.map List.length).take (i+1)).sum
      = ((myB.map List.length).take i).sum + (myB.map List.length)[i] :=
    List.sum_take_succ _ _ hiL2
  have hleni : (myB.map List.length)[i] = (myB[i]).length := by
    simp
  have hrle : rowsToTake ≤ (myB[i]).length := by
    rw [← hleni]
    omega
  have hhead : (myB.drop i).headD [] = myB[i] := by
    rw [List.headD_eq_head?, List.head?_drop]
    simp [List.getElem?_eq_getElem hiL]
  have hmaptake : List.map List.length (List.take i myB)
      = List.take i (List.map List.length myB) := by
    rw [List.map_take]
  have hmapdrop : List.map List.length (List.drop (i+1) myB)
      = List.drop (i+1) (List.map List.length myB) := by
    rw [List.map_drop]
  have hflatlen : ((myB.take i).flatten).length = ((myB.map List.length).take i).sum := by
    rw [List.length_flatten, hmaptake]
  have htakelen : (((myB.drop i).headD []).take rowsToTake).length = rowsToTake := by
    rw [hhead]
    exact List.length_take_of_le hrle
  have hsplit : ((myB.map List.length).take (i+1)).sum + ((myB.map List.length).drop (i+1)).sum
      = (myB.map List.length).sum :=
    List.sum_take_add_sum_drop _ _
  have hdropcons : myB.drop i = myB[i] :: myB.drop (i+1) :=
    List.drop_eq_getElem_cons hiL
  have htail : (myB.drop i).tail = myB.drop (i+1) := by
    rw [hdropcons, List.tail_cons]
  refine ⟨h0, ?_, ?_, ?_⟩
  · rw [List.length_append, hflatlen, htakelen]
    omega
  · rw [hhead, htail]
    have hrowsplit : (myB[i]).take rowsToTake ++ (myB[i]).drop rowsToTake = myB[i] :=
      List.take_append_drop _ _
    calc ((myB.take i).flatten ++ (myB[i]).take rowsToTake)
          ++ ((myB[i]).drop rowsToTake :: myB.drop (i+1)).flatten
        = (myB.take i).flatten ++ ((myB[i]).take rowsToTake
            ++ ((myB[i]).drop rowsToTake ++ (myB.drop (i+1)).flatten)) := by
          rw [List.flatten_cons, List.append_assoc]
      _ = (myB.take i).flatten ++ (((myB[i]).take rowsToTake ++ (myB[i]).drop rowsToTake)
            ++ (myB.drop (i+1)).flatten) := by
          rw [← List.append_assoc ((myB[i]).take rowsToTake) ((myB[i]).drop rowsToTake)
            ((myB.drop (i+1)).flatten)]
      _ = (myB.take i).flatten ++ (myB[i] ++ (myB.drop (i+1)).flatten) := by rw [hrowsplit]
      _ = (myB.take i).flatten ++ (myB[i] :: myB.drop (i+1)).flatten := by
          rw [List.flatten_cons]
      _ = (myB.take i).flatten ++ (myB.drop i).flatten := by rw [← hdropcons]
      _ = myB.flatten := by rw [← List.flatten_append, List.take_append_drop]
  · rw [hhead, htail]
    simp only [List.map_cons, List.sum_cons, hmapdrop, List.length_drop]
    omega

end OutputExecutor


namespace OutputExecutor

theorem uploadWriteBatch_snd_map {α : Type} (R : Nat) (fp fmt : String) (eid : Nat)
    (wb : List α) (nm : Nat) :
    (uploadWriteBatch R fp fmt eid wb nm).1.map (fun f => f.2) = chunksOf R wb := by
  simp only [uploadWriteBatch, List.map_map]
  exact List.enum_map_snd _

theorem uploadWriteBatch_length {α : Type} (R : Nat) (fp fmt : String) (eid : Nat)
    (wb : List α) (nm : Nat) :
    (uploadWriteBatch R fp fmt eid wb nm).1.length = (chunksOf R wb).length := by
  simp [uploadWriteBatch]

/-- Behaviour of one `OutputExecutor.execute` call: every file written holds exactly
`row_group_size` rows; rows written plus rows retained equal rows previously buffered
plus rows delivered; at most `row_group_size` rows stay buffered afterwards; and the
buffer list never becomes empty once it (or the delivered input) is non-empty. -/
theorem execute_step {α : Type} (R : Nat) (hR : 0 < R) (fp fmt : String) (st : OState α)
    (batches : List (Option (List α))) (eid : Nat) :
    (∀ f ∈ (execute R fp fmt st batches eid).2.2, f.2.length = R) ∧
    ((execute R fp fmt st batches eid).2.2.length * R
        + sumB (execute R fp fmt st batches eid).1
      = sumB st + ((cleanBatches batches).map List.length).sum) ∧
    sumB (execute R fp fmt st batches eid).1 ≤ R ∧
    ((st.myBatches ≠ [] ∨ cleanBatches batches ≠ []) →
      (execute R fp fmt st batches eid).1.myBatches ≠ []) := by
  have hsum : sumB st + ((cleanBatches batches).map List.length).sum
      = ((st.myBatches ++ cleanBatches batches).map List.length).sum := by
    simp [sumB, List.map_append, List.sum_append]
  by_cases hc : ((st.myBatches ++ cleanBatches batches).map List.length).sum ≤ R
  · simp only [execute, if_pos hc]
    refine ⟨by simp, ?_, ?_, ?_⟩
    · simpa [sumB] using hsum.symm
    · simpa [sumB] using hc
    · intro h
      rcases h with h | h
      · simp [h]
      · simp [h]
  · have hclt : R < ((st.myBatches ++ cleanBatches batches).map List.length).sum :=
      Nat.lt_of_not_le hc
    have hpos : 0 < ((st.myBatches ++ cleanBatches batches).map List.length).sum / R * R := by
      have h1 : 1 ≤ ((st.myBatches ++ cleanBatches batches).map List.length).sum / R :=
        (Nat.one_le_div_iff hR).mpr (le_of_lt hclt)
      have h2 := Nat.mul_le_mul_right R h1
      omega
    have hle : ((st.myBatches ++ cleanBatches batches).map List.length).sum / R * R
        ≤ ((st.myBatches ++ cleanBatches batches).map List.length).sum :=
      Nat.div_mul_le_self _ _
    obtain ⟨hrtt0, hwbLen, hsplitEq, hremSum⟩ := sliceFacts _ _ _ _ hpos hle rfl rfl
    have hmodw : (((st.myBatches ++ cleanBatches batches).map List.length).sum / R * R) % R = 0 :=
      Nat.mul_mod_left _ _
    have hmodid : ((st.myBatches ++ cleanBatches batches).map List.length).sum % R
        = ((st.myBatches ++ cleanBatches batches).map List.length).sum
          - ((st.myBatches ++ cleanBatches batches).map List.length).sum / R * R := by
      have h3 := Nat.mod_def ((st.myBatches ++ cleanBatches batches).map List.length).sum R
      rw [Nat.mul_comm] at h3
      omega
    have hmodlt : ((st.myBatches ++ cleanBatches batches).map List.length).sum % R < R :=
      Nat.mod_lt _ hR
    simp only [execute, if_neg hc, if_pos hrtt0]
    refine ⟨?_, ?_, ?_, ?_⟩
    · intro f hf
      have hmem := List.mem_map_of_mem (fun f => f.2) hf
      rw [uploadWriteBatch_snd_map R fp fmt eid _ st.name] at hmem
      exact (chunksOf_exact R hR _ (by rw [hwbLen]; exact hmodw)).1 _ hmem
    · rw [uploadWriteBatch_length]
      have hext := (chunksOf_exact R hR _ (by rw [hwbLen]; exact hmodw)).2
      rw [hext, hwbLen, hsum]
      simp only [sumB]
      rw [hremSum]
      omega
    · simp only [sumB]
      rw [hremSum]
      omega
    · intro _
      simp

end OutputExecutor


namespace OutputExecutor

/-- Run-level invariant of the output executor: all files written by `execute` calls
hold exactly `row_group_size` rows, written-plus-buffered rows account for every
delivered row, at most one row group stays buffered, and the buffer list is non-empty
once any row has been delivered. -/
theorem runFrom_spec {α : Type} (R : Nat) (hR : 0 < R) (fp fmt : String) (eid : Nat) :
    ∀ (calls : List (List (Option (List α)))) (st : OState α),
      (∀ f ∈ (runFrom R fp fmt eid st calls).2, f.2.length = R) ∧
      ((runFrom R fp fmt eid st calls).2.length * R + sumB (runFrom R fp fmt eid st calls).1
        = sumB st + totalRows calls) ∧
      (sumB st ≤ R → sumB (runFrom R fp fmt eid st calls).1 ≤ R) ∧
      (st.myBatches ≠ [] → (runFrom R fp fmt eid st calls).1.myBatches ≠ []) ∧
      (0 < totalRows calls → (runFrom R fp fmt eid st calls).1.myBatches ≠ []) := by
  intro calls
  induction calls with
  | nil =>
    intro st
    refine ⟨by simp [runFrom], by simp [runFrom, totalRows], ?_, ?_, ?_⟩
    · intro h
      simpa [runFrom] using h
    · intro h
      simpa [runFrom] using h
    · intro h
      simp [totalRows] at h
  | cons c cs ih =>
    intro st
    obtain ⟨h1, h2, h3, h5⟩ := execute_step R hR fp fmt st c eid
    obtain ⟨i1, i2, i3, i4, i5⟩ := ih (execute R fp fmt st c eid).1
    have ht : totalRows (c :: cs) = ((cleanBatches c).map List.length).sum + totalRows cs := by
      simp [totalRows]
    simp only [runFrom]
    refine ⟨?_, ?_, ?_, ?_, ?_⟩
    · intro f hf
      rcases List.mem_append.mp hf with h | h
      · exact h1 f h
      · exact i1 f h
    · rw [List.length_append, Nat.add_mul, ht]
      omega
    · intro _
      exact i3 h3
    · intro hne
      exact i4 (h5 (Or.inl hne))
    · intro hpos
      by_cases hcr : 0 < ((cleanBatches c).map List.length).sum
      · have hcne : cleanBatches c ≠ [] := by
          intro hh
          rw [hh] at hcr
          simp at hcr
        exact i4 (h5 (Or.inr hcne))
      · have hcs : 0 < totalRows cs := by omega
        exact i5 hcs

/-- The behaviour of the output executor over a whole run, packaged as a proposition:
all `execute`-written files hold exactly `R` rows; the files written plus the final
buffered `leftover` account for all `N` delivered rows with `leftover ≤ R`; whenever
`N mod R` is non-zero the leftover is exactly `N mod R` (so `execute` wrote
`N / R` files); whenever `N mod R` is zero the leftover is either `0` or exactly `R`;
and `done` flushes the leftover as a single file exactly when the leftover is
non-zero. -/
def c2AmendedProp {α : Type} (R : Nat) (fp fmt : String) (eid : Nat)
    (calls : List (List (Option (List α)))) : Prop :=
  (∀ f ∈ (runExecute R fp fmt eid calls).2, f.2.length = R) ∧
  (runExecute R fp fmt eid calls).2.length * R + sumB (runExecute R fp fmt eid calls).1
    = totalRows calls ∧
  sumB (runExecute R fp fmt eid calls).1 ≤ R ∧
  (totalRows calls % R ≠ 0 →
    sumB (runExecute R fp fmt eid calls).1 = totalRows calls % R ∧
    (runExecute R fp fmt eid calls).2.length * R + totalRows calls % R = totalRows calls) ∧
  (totalRows calls % R = 0 →
    sumB (runExecute R fp fmt eid calls).1 = 0 ∨
    sumB (runExecute R fp fmt eid calls).1 = R) ∧
  (sumB (runExecute R fp fmt eid calls).1 = 0 →
    (done R fp fmt (runExecute R fp fmt eid calls).1 eid).map (fun r => r.2) = .ok []) ∧
  (0 < sumB (runExecute R fp fmt eid calls).1 →
    (done R fp fmt (runExecute R fp fmt eid calls).1 eid).map
        (fun r => r.2.map (fun f => f.2.length))
      = .ok [sumB (runExecute R fp fmt eid calls).1])

/-- Claim C2 (amended): over any run delivering `N > 0` rows with row-group size
`R > 0`, every file written by `execute` calls holds exactly `R` rows; `execute` calls
write `(N - leftover) / R` files where `leftover` (at most `R`) is what stays buffered;
when `N mod R` is non-zero this means exactly `floor(N/R)` files during `execute` and a
final `done` file of `N mod R` rows; when `N mod R = 0` the leftover is either `0`
(everything was flushed during `execute` and `done` writes no file) or exactly `R`
(because `execute` flushes only when the buffer strictly exceeds `R`), in which case
`done` writes one final full file of `R` rows rather than no file. -/
theorem c2_output_row_groups {α : Type} (R : Nat) (fp fmt : String) (eid : Nat)
    (calls : List (List (Option (List α)))) (hR : 0 < R) (hN : 0 < totalRows calls) :
    c2AmendedProp R fp fmt eid calls := by
  obtain ⟨r1, r2, r3, _, r5⟩ := runFrom_spec R hR fp fmt eid calls (initState α)
  have hinit : sumB (initState α) = 0 := by simp [sumB, initState]
  have hinit2 : sumB (initState α) ≤ R := by omega
  have hne : (runExecute R fp fmt eid calls).1.myBatches ≠ [] := r5 hN
  have r2a : (runExecute R fp fmt eid calls).2.length * R
      + sumB (runExecute R fp fmt eid calls).1 = totalRows calls := by
    simpa [runExecute, hinit] using r2
  have r3a : sumB (runExecute R fp fmt eid calls).1 ≤ R := r3 hinit2
  refine ⟨r1, r2a, r3a, ?_, ?_, ?_, ?_⟩
  · intro hmod
    have hl : totalRows calls % R
        = ((runExecute R fp fmt eid calls).2.length * R
            + sumB (runExecute R fp fmt eid calls).1) % R := by rw [r2a]
    rw [Nat.add_comm, Nat.add_mul_mod_self_right] at hl
    have hlt : sumB (runExecute R fp fmt eid calls).1 < R := by
      rcases Nat.lt_or_ge (sumB (runExecute R fp fmt eid calls).1) R with h | h
      · exact h
      · have hEq : sumB (runExecute R fp fmt eid calls).1 = R := by omega
        rw [hEq, Nat.mod_self] at hl
        omega
    rw [Nat.mod_eq_of_lt hlt] at hl
    constructor
    · omega
    · omega
  · intro hmod
    have hl : totalRows calls % R
        = ((runExecute R fp fmt eid calls).2.length * R
            + sumB (runExecute R fp fmt eid calls).1) % R := by rw [r2a]
    rw [Nat.add_comm, Nat.add_mul_mod_self_right] at hl
    rcases Nat.lt_or_ge (sumB (runExecute R fp fmt eid calls).1) R with h | h
    · left
      rw [Nat.mod_eq_of_lt h] at hl
      omega
    · right
      omega
  · have hdf : (runExecute R fp fmt eid calls).1.myBatches.flatten.length
        = sumB (runExecute R fp fmt eid calls).1 := by
      rw [List.length_flatten]
      rfl
    have hifE : ((runExecute R fp fmt eid calls).1.myBatches.isEmpty) = false := by
      rcases hx : (runExecute R fp fmt eid calls).1.myBatches with _ | ⟨b, bs⟩
      · exact absurd hx hne
      · rfl
    intro hz
    simp only [done, hifE, Bool.false_eq_true, if_false, Except.map, uploadWriteBatch]
    have hfl : (runExecute R fp fmt eid calls).1.myBatches.flatten = [] := by
      have hl0 : (runExecute R fp fmt eid calls).1.myBatches.flatten.length = 0 := by omega
      exact List.eq_nil_of_length_eq_zero hl0
    rw [hfl, chunksOf_nil]
    rfl
  · have hdf : (runExecute R fp fmt eid calls).1.myBatches.flatten.length
        = sumB (runExecute R fp fmt eid calls).1 := by
      rw [List.length_flatten]
      rfl
    have hifE : ((runExecute R fp fmt eid calls).1.myBatches.isEmpty) = false := by
      rcases hx : (runExecute R fp fmt eid calls).1.myBatches with _ | ⟨b, bs⟩
      · exact absurd hx hne
      · rfl
    intro hz
    simp only [done, hifE, Bool.false_eq_true, if_false, Except.map, uploadWriteBatch]
    have hfl : (runExecute R fp fmt eid calls).1.myBatches.flatten ≠ [] := by
      intro hh
      rw [hh] at hdf
      simp at hdf
      omega
    rw [chunksOf_single R hR _ hfl (by omega)]
    simp [hdf]

/-- Claim C2 exactly as stated: `execute` calls write `floor(N/R)` full files of `R`
rows each, and `done` writes one final file of `N mod R` rows, no file when
`N mod R = 0`. -/
def claimC2Spec : Prop :=
  ∀ (R : Nat), 0 < R → ∀ (eid : Nat) (calls : List (List (Option (List Nat)))),
    (∀ f ∈ (runExecute R "part" "csv" eid calls).2, f.2.length = R) ∧
    (runExecute R "part" "csv" eid calls).2.length = totalRows calls / R ∧
    (∀ mani dfiles,
      done R "part" "csv" (runExecute R "part" "csv" eid calls).1 eid = .ok (mani, dfiles) →
      (totalRows calls % R = 0 → dfiles = []) ∧
      (totalRows calls % R ≠ 0 →
        dfiles.map (fun f => f.2.length) = [totalRows calls % R]))

/-- Claim C2 is false as stated: deliver one batch of exactly `R = 2` rows.  The
`execute` call buffers it without writing (the flush condition is strictly greater
than `R`), so `execute` writes 0 files where the claim demands `floor(2/2) = 1`, and
`done` then writes one full file of 2 rows where the claim demands none. -/
theorem c2_counterexample : ¬ claimC2Spec := by
  intro h
  have h2 := (h 2 (by decide) 0 [[some [0, 1]]]).2.1
  exact absurd h2 (by decide)

theorem c2_output_row_groups_witness :
    (0 < 2 ∧ 0 < totalRows [[some [(0 : Nat), 1], some [2]]]) ∧
    c2AmendedProp 2 "part" "csv" 0 [[some [(0 : Nat), 1], some [2]]] :=
  ⟨⟨by decide, by decide⟩,
    c2_output_row_groups 2 "part" "csv" 0 [[some [(0 : Nat), 1], some [2]]]
      (by decide) (by decide)⟩

end OutputExecutor


/-- Claim C9 (code bug): files written go under `{prefix}-{executor_id}-{n}.{format}`
with `n` increasing by one per file, but the manifest returned by `execute` is built
from the *already advanced* counter and an extra `-i` component
(`prefix-eid-name-i.format`), so it does not list the filenames actually written.
Concrete run: 3 rows with row-group size 2 write the file `part-7-0.csv`, while the
returned manifest lists `part-7-1-0.csv`. -/
theorem c9_manifest_mismatch :
    (OutputExecutor.execute 2 "part" "csv" (OutputExecutor.initState Nat)
        [some [10, 11, 12]] 7).2.2.map Prod.fst = ["part-7-0.csv"] ∧
    (OutputExecutor.execute 2 "part" "csv" (OutputExecutor.initState Nat)
        [some [10, 11, 12]] 7).2.1 = some ["part-7-1-0.csv"] ∧
    (OutputExecutor.execute 2 "part" "csv" (OutputExecutor.initState Nat)
        [some [10, 11, 12]] 7).2.1
      ≠ some ((OutputExecutor.execute 2 "part" "csv" (OutputExecutor.initState Nat)
        [some [10, 11, 12]] 7).2.2.map Prod.fst) := by
  refine ⟨by decide, by decide, by decide⟩

/-! ## CountExecutor and SQLAggExecutor (src/pyquokka/executors.py lines 710-727, 587-622)

These two executors do not filter `None` entries out of `batches`. -/

namespace CountExecutor

/-- Embedding of `CountExecutor.execute`: `self.state += sum(len(batch) for batch in
batches)`.  `len(None)` raises `TypeError`, so any `None` entry is an error. -/
def execute {α : Type} (state : Nat) (batches : List (Option (List α))) :
    Except PyErr Nat :=
  if batches.any (fun b => b.isNone) then .error .typeError
  else .ok (state + ((batches.filterMap id).map List.length).sum)

/-- Embedding of `CountExecutor.done`: returns the single-row count dataframe. -/
def done (state : Nat) : Option (List Nat) := some [state]

end CountExecutor

namespace SQLAggExecutor

/-- Embedding of `SQLAggExecutor.execute`: `batch = pa.concat_tables(batches)` (raises
on a `None` entry and on an empty list), then the batch is appended to the running
concatenated state.  Nothing is emitted. -/
def execute {α : Type} (state : Option (List α)) (batches : List (Option (List α))) :
    Except PyErr (Option (List α)) :=
  match paConcatTables batches with
  | .error e => .error e
  | .ok batch =>
    .ok (some (match state with
      | none => batch
      | some s => s ++ batch))

/-- Embedding of `SQLAggExecutor.done`: `None` state gives `None`; otherwise the
aggregation clause runs over the accumulated table (the duckdb evaluation is the
abstract function `sqlAgg`). -/
def done {α β : Type} (sqlAgg : List α → β) (state : Option (List α)) : Option β :=
  match state with
  | none => none
  | some s => some (sqlAgg s)

end SQLAggExecutor


/-! ## SortedAsofExecutor (src/pyquokka/executors.py lines 624-683)

Rows carry a timestamp (`time` column), a join key (`symbol` column) and an opaque
payload distinguishing rows.  Stream 0 is the primary ("trade") stream, stream 1 the
secondary ("quote") stream. -/

/-- A row of the as-of join executor: timestamp, symbol (join key) and payload. -/
structure TRow where
  ts : Int
  sym : Nat
  val : Nat
  deriving DecidableEq, Repr

namespace SortedAsofExecutor

/-- Mutable state: `self.trade_state` and `self.quote_state` (both start as `None`). -/
structure AsofState where
  trade_state : Option (List TRow)
  quote_state : Option (List TRow)
  deriving DecidableEq, Repr

/-- Fresh executor state. -/
def initState : AsofState := ⟨none, none⟩

/-- The `[-1]` access on the time column (only ever evaluated on non-empty frames). -/
def lastTs (l : List TRow) : Int :=
  match l.getLast? with
  | some r => r.ts
  | none => 0

/-- Embedding of the monotonic vstack (`assert state[time][-1] <= batch[time][0]`
followed by `state.vstack(batch)`).  `batch[time][0]` on an empty batch raises. -/
def vstackChecked (cur : Option (List TRow)) (batch : List TRow) :
    Except PyErr (Option (List TRow)) :=
  match cur with
  | none => .ok (some batch)
  | some s =>
    if 0 < s.length then
      match batch.head? with
      | none => .error .indexError
      | some b0 =>
        if lastTs s ≤ b0.ts then .ok (some (s ++ batch))
        else .error .assertionError
    else .ok (some (s ++ batch))

/-- Embedding of `polars.join_asof` (backward strategy, `by` the symbol column) for a
single left row: the nearest quote at-or-before the row's timestamp with the same
symbol; on a timestamp-sorted right side the last qualifying row is that match. -/
def asofMatch (qs : List TRow) (t : TRow) : Option TRow :=
  (qs.filter (fun q => q.sym = t.sym && decide (q.ts ≤ t.ts))).getLast?

/-- Embedding of `left.join_asof(right, strategy backward, by symbol)`: one output row
per left row, carrying its match (null when none exists). -/
def joinAsof (ts qs : List TRow) : List (TRow × Option TRow) :=
  ts.map (fun t => (t, asofMatch qs t))

/-- Embedding of the forward-strategy match used for `mock_result`: the nearest trade
at-or-after the quote's timestamp with the same symbol. -/
def asofMatchForward (trs : List TRow) (q : TRow) : Option TRow :=
  (trs.filter (fun t => t.sym = q.sym && decide (q.ts ≤ t.ts))).head?

/-- The maximum of a list of timestamps (`polars.max` under a groupby). -/
def maxInt : List Int → Option Int
  | [] => none
  | a :: t =>
    match maxInt t with
    | none => some a
    | some b => some (max a b)

/-- Embedding of `latest_joined_quotes` for one symbol: the greatest timestamp among
the joinable quotes of that symbol that have a forward match among the joinable
trades (`mock_result.drop_nulls().groupby(symbol).agg(max(time))`); `none` when the
symbol has no such quote (a null after the left join, filled with `-1`). -/
def latestJoinedQuotes (jQ jT : List TRow) (s : Nat) : Option Int :=
  maxInt ((jQ.filter (fun q => q.sym = s && (asofMatchForward jT q).isSome)).map
    (fun q => q.ts))

/-- The slice `joinable_trades = trade_state.filter(time < quote_state[time][-1])`. -/
def joinableTrades (ts qs : List TRow) : List TRow :=
  ts.filter (fun t => decide (t.ts < lastTs qs))

/-- The slice `joinable_quotes = quote_state.filter(time <= joinable_trades[time][-1])`. -/
def joinableQuotes (ts qs : List TRow) : List TRow :=
  qs.filter (fun q => decide (q.ts ≤ lastTs (joinableTrades ts qs)))

/-- Embedding of the join part of `SortedAsofExecutor.execute` (source lines 656-680),
operating on the post-append state: compute the joinable slices, drop the joined
trades from the trade buffer (keeping `time >= quote_state[time][-1]`), perform the
as-of join, and prune the quote buffer up to the per-symbol latest joined timestamp
(symbols with no match get the `-1` fill from `fill_null(-1)`). -/
def joinPhase (st1 : AsofState) : AsofState × Option (List (TRow × Option TRow)) :=
  match st1.trade_state, st1.quote_state with
  | some ts, some qs =>
    if ts.length = 0 ∨ qs.length = 0 then (st1, none)
    else
      if (joinableTrades ts qs).length = 0 then (st1, none)
      else
        if (joinableQuotes ts qs).length = 0 then (st1, none)
        else
          (⟨some (ts.filter (fun t => decide (lastTs qs ≤ t.ts))),
            some (qs.filter (fun q =>
              decide ((latestJoinedQuotes (joinableQuotes ts qs) (joinableTrades ts qs)
                q.sym).getD (-1) ≤ q.ts)))⟩,
           some (joinAsof (joinableTrades ts qs) (joinableQuotes ts qs)))
  | _, _ => (st1, none)

/-- Embedding of `SortedAsofExecutor.execute`: concatenate the batches (raising on
`None` entries), append to the stream's buffer with the monotonicity assertion, then
run the join phase. -/
def execute (st : AsofState) (batches : List (Option (List TRow))) (streamId : Nat) :
    Except PyErr (AsofState × Option (List (TRow × Option TRow))) :=
  match paConcatTables batches with
  | .error e => .error e
  | .ok batch =>
    let step1 : Except PyErr AsofState :=
      if streamId = 0 then
        (vstackChecked st.trade_state batch).map (fun t => ⟨t, st.quote_state⟩)
      else
        (vstackChecked st.quote_state batch).map (fun q => ⟨st.trade_state, q⟩)
    match step1 with
    | .error e => .error e
    | .ok st1 => .ok (joinPhase st1)

/-- Embedding of `SortedAsofExecutor.done`: `None.join_asof` raises when no trade ever
arrived; joining against a `None` quote state also raises; otherwise one final as-of
join over both remaining buffers. -/
def done (st : AsofState) : Except PyErr (List (TRow × Option TRow)) :=
  match st.trade_state with
  | none => .error .attributeError
  | some ts =>
    match st.quote_state with
    | none => .error .typeError
    | some qs => .ok (joinAsof ts qs)

end SortedAsofExecutor

/-- Claim C4 (code bug): `execute` must tolerate `None` and zero-row entries in the
batch list, but `CountExecutor.execute` runs `len(batch)` over every entry
(`len(None)` raises `TypeError`), `SQLAggExecutor.execute` and
`SortedAsofExecutor.execute` pass the raw list to `pa.concat_tables` (raising on a
`None` entry), and `SortedAsofExecutor.execute` additionally indexes `batch[time][0]`
(raising on a call that delivers only zero-row batches once the buffer is non-empty).
-/
theorem c4_execute_none_tolerance :
    CountExecutor.execute 0 ([none] : List (Option (List Nat))) = .error .typeError ∧
    SQLAggExecutor.execute none ([none] : List (Option (List Nat))) = .error .typeError ∧
    SortedAsofExecutor.execute SortedAsofExecutor.initState [none] 0 = .error .typeError ∧
    SortedAsofExecutor.execute ⟨some [⟨1, 0, 0⟩], none⟩ [some []] 0 = .error .indexError := by
  refine ⟨rfl, rfl, rfl, rfl⟩


namespace SortedAsofExecutor

theorem mem_of_getLast_eq {α : Type} (l : List α) (a : α) (h : l.getLast? = some a) :
    a ∈ l := by
  have hne : l ≠ [] := by
    intro hl
    subst hl
    simp at h
  rw [List.getLast?_eq_getLast_of_ne_nil hne, Option.some_inj] at h
  rw [← h]
  exact List.getLast_mem hne

theorem mem_of_head_eq {α : Type} (l : List α) (a : α) (h : l.head? = some a) : a ∈ l := by
  cases l with
  | nil => simp at h
  | cons x t =>
    simp at h
    subst h
    simp

theorem lastTs_spec (l : List TRow) (h : l ≠ []) : ∃ r ∈ l, lastTs l = r.ts := by
  cases hh : l.getLast? with
  | none =>
    have hs : l.getLast?.isSome = true := List.getLast?_isSome.mpr h
    rw [hh] at hs
    simp at hs
  | some r => exact ⟨r, mem_of_getLast_eq l r hh, by simp [lastTs, hh]⟩

theorem le_getLast_of_sorted :
    ∀ (l : List TRow), List.Sorted (fun a b => a.ts ≤ b.ts) l →
      ∀ (m : TRow), l.getLast? = some m → ∀ a ∈ l, a.ts ≤ m.ts := by
  intro l
  induction l with
  | nil => simp
  | cons x t ih =>
    intro hs m hm a ha
    cases t with
    | nil =>
      simp at hm ha
      subst hm
      subst ha
      omega
    | cons y u =>
      rw [List.getLast?_cons_cons] at hm
      have hs2 : List.Sorted (fun a b => a.ts ≤ b.ts) (y :: u) := hs.of_cons
      rcases List.mem_cons.mp ha with h | h
      · subst h
        have hy : a.ts ≤ y.ts := (List.sorted_cons.mp hs).1 y (by simp)
        have hym := ih hs2 m hm y (by simp)
        omega
      · exact ih hs2 m hm a h

theorem maxInt_eq_none (l : List Int) : maxInt l = none ↔ l = [] := by
  cases l with
  | nil => simp [maxInt]
  | cons a t =>
    simp only [maxInt]
    cases maxInt t <;> simp

theorem maxInt_mem : ∀ (l : List Int) (m : Int), maxInt l = some m → m ∈ l := by
  intro l
  induction l with
  | nil =>
    intro m h
    simp [maxInt] at h
  | cons a t ih =>
    intro m h
    simp only [maxInt] at h
    cases ht : maxInt t with
    | none =>
      rw [ht] at h
      simp at h
      simp [h]
    | some b =>
      rw [ht] at h
      simp at h
      rcases max_choice a b with hc | hc
      · rw [hc] at h
        simp [← h]
      · rw [hc] at h
        rw [← h]
        exact List.mem_cons_of_mem _ (ih b ht)

theorem le_maxInt : ∀ (l : List Int) (a : Int), a ∈ l → ∀ m, maxInt l = some m → a ≤ m := by
  intro l
  induction l with
  | nil =>
    intro a ha
    simp at ha
  | cons x t ih =>
    intro a ha m h
    simp only [maxInt] at h
    cases ht : maxInt t with
    | none =>
      have htn : t = [] := (maxInt_eq_none t).mp ht
      subst htn
      rw [ht] at h
      simp at h ha
      omega
    | some b =>
      rw [ht] at h
      simp at h
      rcases List.mem_cons.mp ha with hax | hat
      · subst hax
        rw [← h]
        exact le_max_left _ _
      · have := ih a hat b ht
        rw [← h]
        have h2 := le_max_right x b
        omega

theorem maxInt_ne_none (l : List Int) (h : l ≠ []) : ∃ m, maxInt l = some m := by
  cases hm : maxInt l with
  | none => exact absurd ((maxInt_eq_none l).mp hm) h
  | some m => exact ⟨m, rfl⟩

/-- The amended behaviour of the join phase on any call where both buffers are
non-empty after the append: when either joinable slice is empty the call joins
nothing, drops nothing and emits no result; otherwise the trades strictly before the
watermark are as-of joined against the joinable quote slice and exactly they are
dropped from the trade buffer. -/
def c6AmendedProp (ts qs : List TRow) : Prop :=
  (((joinableTrades ts qs).length = 0 ∨ (joinableQuotes ts qs).length = 0) →
    joinPhase ⟨some ts, some qs⟩ = (⟨some ts, some qs⟩, none)) ∧
  (0 < (joinableTrades ts qs).length → 0 < (joinableQuotes ts qs).length →
    ∃ nts nqs r, joinPhase ⟨some ts, some qs⟩ = (⟨some nts, some nqs⟩, some r) ∧
      (∀ t ∈ ts, (t ∈ nts ↔ lastTs qs ≤ t.ts)) ∧
      r.map Prod.fst = joinableTrades ts qs ∧
      (∀ p ∈ r, p.2 = asofMatch (joinableQuotes ts qs) p.1))

/-- Claim C6 (amended): on every call with both buffers non-empty, if either joinable
slice is empty (no trade strictly before the watermark, or no quote at or before the
last joinable trade) the call joins and drops nothing and emits no result; otherwise
the joinable primary rows are exactly those with timestamp strictly before the
watermark, they are as-of joined against the joinable secondary slice, and exactly
they are dropped from the primary buffer. -/
theorem c6_asof_joinable (ts qs : List TRow)
    (hts : 0 < ts.length) (hqs : 0 < qs.length) :
    c6AmendedProp ts qs := by
  have hne : ¬ (ts.length = 0 ∨ qs.length = 0) := by omega
  constructor
  · intro hOr
    by_cases hjt : (joinableTrades ts qs).length = 0
    · simp only [joinPhase, if_neg hne, if_pos hjt]
    · have hjq : (joinableQuotes ts qs).length = 0 := by
        rcases hOr with h | h
        · exact absurd h hjt
        · exact h
      simp only [joinPhase, if_neg hne, if_neg hjt, if_pos hjq]
  · intro hjt hjq
    refine ⟨ts.filter (fun t => decide (lastTs qs ≤ t.ts)),
      qs.filter (fun q =>
        decide ((latestJoinedQuotes (joinableQuotes ts qs) (joinableTrades ts qs)
          q.sym).getD (-1) ≤ q.ts)),
      joinAsof (joinableTrades ts qs) (joinableQuotes ts qs), ?_, ?_, ?_, ?_⟩
    · simp only [joinPhase, if_neg hne, if_neg (by omega : ¬ (joinableTrades ts qs).length = 0),
        if_neg (by omega : ¬ (joinableQuotes ts qs).length = 0)]
    · intro t ht
      simp [List.mem_filter, ht]
    · simp only [joinAsof, List.map_map]
      have hcomp : (Prod.fst ∘ fun t : TRow => (t, asofMatch (joinableQuotes ts qs) t)) = id :=
        rfl
      rw [hcomp, List.map_id]
    · intro p hp
      simp only [joinAsof, List.mem_map] at hp
      obtain ⟨t, _, rfl⟩ := hp
      rfl

end SortedAsofExecutor

/-- Claim C6 exactly as stated: the primary rows *at or before* the watermark are
joined and dropped from the primary buffer.  Specialised to a call delivering one
secondary batch while primary rows are buffered. -/
def claimC6Spec : Prop :=
  ∀ (trades batch : List TRow) (st2 : SortedAsofExecutor.AsofState)
    (res : Option (List (TRow × Option TRow))),
    SortedAsofExecutor.execute ⟨some trades, none⟩ [some batch] 1 = .ok (st2, res) →
    0 < trades.length → 0 < batch.length →
    st2.trade_state
      = some (trades.filter (fun t => decide (SortedAsofExecutor.lastTs batch < t.ts))) ∧
    res = some (SortedAsofExecutor.joinAsof
      (trades.filter (fun t => decide (t.ts ≤ SortedAsofExecutor.lastTs batch)))
      (batch.filter (fun q => decide (q.ts ≤ SortedAsofExecutor.lastTs
        (trades.filter (fun t => decide (t.ts ≤ SortedAsofExecutor.lastTs batch)))))))

/-- Claim C6 is false as stated: with a buffered trade at time 5 and a quote batch
whose watermark is 5, the trade is at-or-before the watermark, but the code joins only
rows *strictly before* the watermark (`<`, source line 659), so nothing is joined, the
trade stays buffered, and no result is emitted. -/
theorem c6_counterexample : ¬ claimC6Spec := by
  intro h
  have h2 := h [⟨5, 0, 0⟩] [⟨5, 0, 1⟩] ⟨some [⟨5, 0, 0⟩], some [⟨5, 0, 1⟩]⟩ none rfl
    (by decide) (by decide)
  exact absurd h2.2 (by decide)

/-- Auxiliary closed fact used as the hypothesis record of `c6_asof_joinable`,
instantiated at a concrete input. -/
theorem c6_asof_joinable_witness :
    (0 < ([⟨1, 0, 0⟩] : List TRow).length ∧
     0 < ([⟨0, 0, 1⟩, ⟨5, 0, 2⟩] : List TRow).length) ∧
    SortedAsofExecutor.c6AmendedProp [⟨1, 0, 0⟩] [⟨0, 0, 1⟩, ⟨5, 0, 2⟩] :=
  ⟨⟨by decide, by decide⟩,
    SortedAsofExecutor.c6_asof_joinable [⟨1, 0, 0⟩] [⟨0, 0, 1⟩, ⟨5, 0, 2⟩]
      (by decide) (by decide)⟩


namespace SortedAsofExecutor

theorem asofMatch_spec (qs2 : List TRow) (t : TRow) (q0 : TRow)
    (h : asofMatch qs2 t = some q0) :
    q0 ∈ qs2 ∧ q0.sym = t.sym ∧ q0.ts ≤ t.ts := by
  unfold asofMatch at h
  have hmem := mem_of_getLast_eq _ _ h
  have hf := List.mem_filter.mp hmem
  have hp := hf.2
  simp at hp
  exact ⟨hf.1, hp.1, hp.2⟩

theorem asofMatch_isSome (qs2 : List TRow) (t : TRow) (q : TRow) (hq : q ∈ qs2)
    (hsym : q.sym = t.sym) (hle : q.ts ≤ t.ts) : ∃ q2, asofMatch qs2 t = some q2 := by
  unfold asofMatch
  have hmem : q ∈ qs2.filter (fun q => q.sym = t.sym && decide (q.ts ≤ t.ts)) :=
    List.mem_filter.mpr ⟨hq, by simp [hsym, hle]⟩
  have hne := List.ne_nil_of_mem hmem
  have hs : (qs2.filter (fun q => q.sym = t.sym && decide (q.ts ≤ t.ts))).getLast?.isSome
      = true := List.getLast?_isSome.mpr hne
  cases hl : (qs2.filter (fun q => q.sym = t.sym && decide (q.ts ≤ t.ts))).getLast? with
  | none =>
    rw [hl] at hs
    simp at hs
  | some q2 => exact ⟨q2, rfl⟩

theorem asofMatch_max_of_sorted (qs2 : List TRow)
    (hs : List.Sorted (fun a b => a.ts ≤ b.ts) qs2) (t : TRow) (q0 : TRow)
    (h : asofMatch qs2 t = some q0) :
    ∀ q ∈ qs2, q.sym = t.sym → q.ts ≤ t.ts → q.ts ≤ q0.ts := by
  intro q hq hsym hle
  unfold asofMatch at h
  have hmemq : q ∈ qs2.filter (fun q => q.sym = t.sym && decide (q.ts ≤ t.ts)) :=
    List.mem_filter.mpr ⟨hq, by simp [hsym, hle]⟩
  exact le_getLast_of_sorted _ (hs.filter _) q0 h q hmemq

theorem asofMatchForward_isSome (trs : List TRow) (q : TRow) (t : TRow) (ht : t ∈ trs)
    (hsym : t.sym = q.sym) (hts2 : q.ts ≤ t.ts) :
    (asofMatchForward trs q).isSome = true := by
  unfold asofMatchForward
  have hmem : t ∈ trs.filter (fun t => t.sym = q.sym && decide (q.ts ≤ t.ts)) :=
    List.mem_filter.mpr ⟨ht, by simp [hsym, hts2]⟩
  have hne := List.ne_nil_of_mem hmem
  cases hl : trs.filter (fun t => t.sym = q.sym && decide (q.ts ≤ t.ts)) with
  | nil => exact absurd hl hne
  | cons x xs => rfl

theorem asofMatchForward_spec (trs : List TRow) (q : TRow) (t1 : TRow)
    (h : asofMatchForward trs q = some t1) :
    t1 ∈ trs ∧ t1.sym = q.sym ∧ q.ts ≤ t1.ts := by
  unfold asofMatchForward at h
  have hmem := mem_of_head_eq _ _ h
  have hf := List.mem_filter.mp hmem
  have hp := hf.2
  simp at hp
  exact ⟨hf.1, hp.1, hp.2⟩

theorem latestJoinedQuotes_le (jQ jT : List TRow) (s : Nat) (q : TRow)
    (hq : q ∈ jQ) (hsym : q.sym = s) (hfwd : (asofMatchForward jT q).isSome = true) :
    ∃ L, latestJoinedQuotes jQ jT s = some L ∧ q.ts ≤ L := by
  unfold latestJoinedQuotes
  have hmem : q.ts ∈ (jQ.filter (fun q => q.sym = s && (asofMatchForward jT q).isSome)).map
      (fun q => q.ts) :=
    List.mem_map_of_mem _ (List.mem_filter.mpr ⟨hq, by simp [hsym, hfwd]⟩)
  have hne := List.ne_nil_of_mem hmem
  obtain ⟨m, hm⟩ := maxInt_ne_none _ hne
  exact ⟨m, hm, le_maxInt _ _ hmem m hm⟩

theorem latestJoinedQuotes_mem (jQ jT : List TRow) (s : Nat) (L : Int)
    (h : latestJoinedQuotes jQ jT s = some L) :
    ∃ q0 ∈ jQ, q0.sym = s ∧ (asofMatchForward jT q0).isSome = true ∧ q0.ts = L := by
  unfold latestJoinedQuotes at h
  have hmem := maxInt_mem _ _ h
  simp only [List.mem_map] at hmem
  obtain ⟨q0, hq0, hts⟩ := hmem
  have hf := List.mem_filter.mp hq0
  have hp := hf.2
  simp at hp
  exact ⟨q0, hf.1, hp.1, hp.2, hts⟩

/-- The content of claim C7 once corrected: the quote buffer is pruned exactly up to
the per-symbol greatest timestamp that has already produced a backward join match —
realised by and bounding the matches of the joinable trades — and no pruned quote is
one that a retained (or later) trade could still need as its nearest preceding match.
-/
def c7AmendedProp (ts qs : List TRow) : Prop :=
  ∃ nts nqs r, joinPhase ⟨some ts, some qs⟩ = (⟨some nts, some nqs⟩, some r) ∧
    (∀ q ∈ qs, (q ∈ nqs ↔
      (latestJoinedQuotes (joinableQuotes ts qs) (joinableTrades ts qs) q.sym).getD (-1)
        ≤ q.ts)) ∧
    (∀ t0 ∈ joinableTrades ts qs, ∀ q0,
      asofMatch (joinableQuotes ts qs) t0 = some q0 →
      ∃ L, latestJoinedQuotes (joinableQuotes ts qs) (joinableTrades ts qs) q0.sym
          = some L ∧ q0.ts ≤ L) ∧
    (∀ s L, latestJoinedQuotes (joinableQuotes ts qs) (joinableTrades ts qs) s = some L →
      ∃ t0 ∈ joinableTrades ts qs, ∃ q0, t0.sym = s ∧
        asofMatch (joinableQuotes ts qs) t0 = some q0 ∧ q0.ts = L) ∧
    (∀ t ∈ nts, ∀ q ∈ qs, q.sym = t.sym → q ∉ nqs →
      ∃ q2 ∈ nqs, q2.sym = t.sym ∧ q.ts ≤ q2.ts ∧ q2.ts ≤ t.ts)

/-- Claim C7 (amended): after a joining call, the quote buffer is pruned exactly up to
the per-symbol maximum timestamp that already produced a join match (for non-negative
timestamps; the `-1` null-fill otherwise misbehaves), and no pruned quote could still
be the nearest-preceding match of any retained primary row. -/
theorem c7_asof_pruning (ts qs : List TRow)
    (hsort : List.Sorted (fun a b => a.ts ≤ b.ts) qs)
    (hq0 : ∀ q ∈ qs, 0 ≤ q.ts)
    (hjt : 0 < (joinableTrades ts qs).length)
    (hjq : 0 < (joinableQuotes ts qs).length) :
    c7AmendedProp ts qs := by
  have hts : ¬ (ts.length = 0 ∨ qs.length = 0) := by
    have h1 := List.length_filter_le (fun t => decide (t.ts < lastTs qs)) ts
    have h2 := List.length_filter_le
      (fun q => decide (q.ts ≤ lastTs (joinableTrades ts qs))) qs
    simp only [joinableTrades] at hjt h1
    simp only [joinableQuotes, joinableTrades] at hjq h2
    omega
  have hjQsub : ∀ q ∈ joinableQuotes ts qs, q ∈ qs ∧ q.ts ≤ lastTs (joinableTrades ts qs) := by
    intro q hq
    have hf := List.mem_filter.mp hq
    refine ⟨hf.1, ?_⟩
    have := hf.2
    simpa using this
  have hjTlast : lastTs (joinableTrades ts qs) < lastTs qs := by
    have hne : joinableTrades ts qs ≠ [] := by
      intro hh
      rw [hh] at hjt
      simp at hjt
    obtain ⟨r, hr, hEq⟩ := lastTs_spec _ hne
    have hf := List.mem_filter.mp hr
    have hp := hf.2
    simp at hp
    rw [hEq]
    exact hp
  have hsortjQ : List.Sorted (fun a b => a.ts ≤ b.ts) (joinableQuotes ts qs) :=
    hsort.filter _
  refine ⟨ts.filter (fun t => decide (lastTs qs ≤ t.ts)),
    qs.filter (fun q =>
      decide ((latestJoinedQuotes (joinableQuotes ts qs) (joinableTrades ts qs)
        q.sym).getD (-1) ≤ q.ts)),
    joinAsof (joinableTrades ts qs) (joinableQuotes ts qs), ?_, ?_, ?_, ?_, ?_⟩
  · simp only [joinPhase, if_neg hts,
      if_neg (by omega : ¬ (joinableTrades ts qs).length = 0),
      if_neg (by omega : ¬ (joinableQuotes ts qs).length = 0)]
  · intro q hq
    simp [List.mem_filter, hq]
  · intro t0 ht0 q0 hmatch
    obtain ⟨hq0jQ, hq0sym, hq0le⟩ := asofMatch_spec _ _ _ hmatch
    have hfwd : (asofMatchForward (joinableTrades ts qs) q0).isSome = true :=
      asofMatchForward_isSome _ _ t0 ht0 hq0sym.symm hq0le
    exact latestJoinedQuotes_le _ _ _ q0 hq0jQ rfl hfwd
  · intro s L hL
    obtain ⟨q0, hq0jQ, hq0sym, hq0fwd, hq0ts⟩ := latestJoinedQuotes_mem _ _ _ _ hL
    obtain ⟨t1, ht1⟩ := Option.isSome_iff_exists.mp hq0fwd
    obtain ⟨ht1jT, ht1sym, ht1le⟩ := asofMatchForward_spec _ _ _ ht1
    obtain ⟨q2, hq2⟩ := asofMatch_isSome _ t1 q0 hq0jQ ht1sym.symm ht1le
    obtain ⟨hq2jQ, hq2sym, hq2le⟩ := asofMatch_spec _ _ _ hq2
    have hq2fwd : (asofMatchForward (joinableTrades ts qs) q2).isSome = true :=
      asofMatchForward_isSome _ _ t1 ht1jT hq2sym.symm hq2le
    obtain ⟨L2, hL2, hq2L2⟩ := latestJoinedQuotes_le _ _ s q2 hq2jQ
      (hq2sym.trans (ht1sym.trans hq0sym)) hq2fwd
    rw [hL] at hL2
    have hL2L : L2 = L := by
      have := Option.some_inj.mp hL2
      omega
    have hq0q2 : q0.ts ≤ q2.ts :=
      asofMatch_max_of_sorted _ hsortjQ t1 q2 hq2 q0 hq0jQ ht1sym.symm ht1le
    refine ⟨t1, ht1jT, q2, ht1sym.trans hq0sym, hq2, ?_⟩
    omega
  · intro t htm q hq hsym hqnot
    have htwm : lastTs qs ≤ t.ts := by
      have hf := List.mem_filter.mp htm
      have := hf.2
      simpa using this
    have hqlt : q.ts < (latestJoinedQuotes (joinableQuotes ts qs) (joinableTrades ts qs)
        q.sym).getD (-1) := by
      by_contra hcon
      push_neg at hcon
      exact hqnot (List.mem_filter.mpr ⟨hq, by simpa using hcon⟩)
    cases hthr : latestJoinedQuotes (joinableQuotes ts qs) (joinableTrades ts qs) q.sym with
    | none =>
      rw [hthr] at hqlt
      simp at hqlt
      have := hq0 q hq
      omega
    | some L =>
      rw [hthr] at hqlt
      simp at hqlt
      obtain ⟨q2, hq2jQ, hq2sym, _, hq2ts⟩ := latestJoinedQuotes_mem _ _ _ _ hthr
      have hq2qs : q2 ∈ qs := (hjQsub q2 hq2jQ).1
      have hq2last : q2.ts ≤ lastTs (joinableTrades ts qs) := (hjQsub q2 hq2jQ).2
      refine ⟨q2, ?_, hq2sym.trans hsym, by omega, by omega⟩
      refine List.mem_filter.mpr ⟨hq2qs, ?_⟩
      rw [hq2sym, hthr]
      simp
      omega

end SortedAsofExecutor

/-- Claim C7 exactly as stated: after any call, the buffered secondary state never
contains a row older than any unmatched primary-stream row still in state. -/
def claimC7Spec : Prop :=
  ∀ (st : SortedAsofExecutor.AsofState) (batches : List (Option (List TRow))) (sid : Nat)
    (st2 : SortedAsofExecutor.AsofState) (res : Option (List (TRow × Option TRow))),
    SortedAsofExecutor.execute st batches sid = .ok (st2, res) →
    ∀ nts nqs, st2.trade_state = some nts → st2.quote_state = some nqs →
      ∀ q ∈ nqs, ∀ t ∈ nts, ¬ (q.ts < t.ts)
/-- Claim C7 is false as stated: the secondary buffer legitimately holds rows older
than every buffered primary row (that is what an as-of join needs).  With a buffered
trade at time 10, delivering quotes at times 1 and 2 joins nothing (no trade is below
the watermark 2) and leaves quote rows at times 1 and 2 — both older than the
unmatched trade at 10 — in state. -/
theorem c7_counterexample : ¬ claimC7Spec := by
  intro h
  have h2 := h ⟨some [⟨10, 0, 0⟩], none⟩ [some [⟨1, 0, 1⟩, ⟨2, 0, 2⟩]] 1
    ⟨some [⟨10, 0, 0⟩], some [⟨1, 0, 1⟩, ⟨2, 0, 2⟩]⟩ none rfl
    [⟨10, 0, 0⟩] [⟨1, 0, 1⟩, ⟨2, 0, 2⟩] rfl rfl
    ⟨1, 0, 1⟩ (by decide) ⟨10, 0, 0⟩ (by decide)
  exact h2 (by decide)

/-- Auxiliary closed fact used as the hypothesis record of `c7_asof_pruning`,
instantiated at a concrete input. -/
theorem c7_asof_pruning_witness :
    (List.Sorted (fun a b => a.ts ≤ b.ts) ([⟨0, 0, 1⟩, ⟨5, 0, 2⟩] : List TRow) ∧
     (∀ q ∈ ([⟨0, 0, 1⟩, ⟨5, 0, 2⟩] : List TRow), 0 ≤ q.ts) ∧
     0 < (SortedAsofExecutor.joinableTrades [⟨1, 0, 0⟩] [⟨0, 0, 1⟩, ⟨5, 0, 2⟩]).length ∧
     0 < (SortedAsofExecutor.joinableQuotes [⟨1, 0, 0⟩] [⟨0, 0, 1⟩, ⟨5, 0, 2⟩]).length) ∧
    SortedAsofExecutor.c7AmendedProp [⟨1, 0, 0⟩] [⟨0, 0, 1⟩, ⟨5, 0, 2⟩] :=
  ⟨⟨by decide, by decide, by decide, by decide⟩,
    SortedAsofExecutor.c7_asof_pruning [⟨1, 0, 0⟩] [⟨0, 0, 1⟩, ⟨5, 0, 2⟩]
      (by decide) (by decide) (by decide) (by decide)⟩


/-! ## Window executors — finalize behaviour (source lines 82-215, 217-264, 267-358)

The aggregations themselves (polars `groupby_dynamic` / `groupby_rolling` and the
duckdb window query) are abstract functions: the claims concern only whether `done`
aggregates the remaining state, returns the no-result value, or raises. -/

/-- Trigger variants (`OnCompletionTrigger` / `OnEventTrigger`). -/
inductive Trigger where
  | onCompletion
  | onEvent
  deriving DecidableEq, Repr

/-- A table with a schema: column names plus rows of integer cells. -/
structure WTable where
  cols : List String
  rows : List (List Int)
  deriving DecidableEq, Repr

namespace HoppingWindowExecutor

/-- Embedding of `batch.with_column((col(time) // size).alias("__window_id"))` for the
tumbling (on-event) path of `HoppingWindowExecutor.done`. -/
def addWindowIds (size : Int) (timeIdx : Nat) (t : WTable) : WTable :=
  ⟨t.cols ++ ["__window_id"], t.rows.map (fun r => r ++ [(r.getD timeIdx 0).fdiv size])⟩

/-- Embedding of `HoppingWindowExecutor.done`.  Under the on-completion trigger the
source evaluates `self.state.groupby_dynamic(...).agg(self.aggregations)`, but
`self.aggregations` is never assigned by `__init__` (`execute` uses
`self.window.polars_aggregations()` instead), so a non-empty state raises
`AttributeError`.  Under the on-event trigger the remaining state is given tumbling
window ids and aggregated through the embedded SQL evaluator `sqlAgg`.  An empty or
never-created state returns `None`. -/
def done (size : Int) (timeIdx : Nat) (sqlAgg : WTable → WTable) (trigger : Trigger)
    (state : Option WTable) : Except PyErr (Option WTable) :=
  match trigger with
  | .onCompletion =>
    match state with
    | some st => if 0 < st.rows.length then .error .attributeError else .ok none
    | none => .ok none
  | .onEvent =>
    match state with
    | some st =>
      if 0 < st.rows.length then .ok (some (sqlAgg (addWindowIds size timeIdx st)))
      else .ok none
    | none => .ok none

end HoppingWindowExecutor

namespace SlidingWindowExecutor

/-- Embedding of `SlidingWindowExecutor.done` (source lines 263-264): `return None`
unconditionally — the buffered state is never aggregated at finalize (each row's
rolling aggregate was already emitted by `execute`). -/
def done (state : Option WTable) : Option WTable := none

end SlidingWindowExecutor

namespace SessionWindowExecutor

/-- Embedding of `DataFrame.drop(col)` at schema level (the dropped column's cells are
irrelevant to the claims and are left in place). -/
def dropCol (c : String) (t : WTable) : WTable :=
  ⟨t.cols.filter (fun x => x ≠ c), t.rows⟩

/-- Embedding of `with_column(lit(1).alias("__window_id"))`. -/
def addLitWindowId (t : WTable) : WTable :=
  ⟨t.cols ++ ["__window_id"], t.rows.map (fun r => r ++ [1])⟩

/-- Embedding of the duckdb call in `SessionWindowExecutor.done` under the on-event
trigger: the query's window clause partitions by `__window_id`, so binding fails when
the input table lacks that column. -/
def duckdbWindowAgg (sqlAgg : WTable → WTable) (t : WTable) : Except PyErr WTable :=
  if "__window_id" ∈ t.cols then .ok (sqlAgg t) else .error .binderError

/-- Embedding of `SessionWindowExecutor.done`: `None`/empty state returns `None`;
under the on-completion trigger the remaining (still-open) sessions get a literal
window id and are aggregated; under the on-event trigger the duckdb query runs over
the state — which `execute` built with `.drop("__window_id")` (source line 306), so
the partition column is absent. -/
def done (polarsAgg sqlAgg : WTable → WTable) (trigger : Trigger)
    (state : Option WTable) : Except PyErr (Option WTable) :=
  match state with
  | none => .ok none
  | some st =>
    if st.rows.length = 0 then .ok none
    else
      match trigger with
      | .onCompletion => .ok (some (polarsAgg (addLitWindowId st)))
      | .onEvent => (duckdbWindowAgg sqlAgg st).map some

end SessionWindowExecutor

/-- Claim C5 exactly as stated: each of the hopping, sliding and session window
executors aggregates the remaining buffered state at finalize and returns that
aggregate (returning the no-result value only when no state was accumulated). -/
def claimC5Spec : Prop :=
  (∀ (size : Int) (tIdx : Nat) (sqlAgg : WTable → WTable) (trigger : Trigger)
    (st : WTable), 0 < st.rows.length →
    ∃ res, HoppingWindowExecutor.done size tIdx sqlAgg trigger (some st) = .ok (some res)) ∧
  (∀ st : WTable, 0 < st.rows.length → SlidingWindowExecutor.done (some st) ≠ none) ∧
  (∀ (polarsAgg sqlAgg : WTable → WTable) (trigger : Trigger) (st : WTable),
    0 < st.rows.length →
    ∃ res, SessionWindowExecutor.done polarsAgg sqlAgg trigger (some st) = .ok (some res))

/-- Claim C5 is false as stated: the sliding window executor's `done` returns `None`
even when buffered state remains (source line 264 is an unconditional `return None`).
-/
theorem c5_counterexample : ¬ claimC5Spec := by
  intro h
  exact absurd (h.2.1 ⟨["ts"], [[0]]⟩ (by decide))
    (by simp [SlidingWindowExecutor.done])

/-- The finalize behaviour of the three window executors as implemented, packaged as
a proposition over a non-empty state lacking a `__window_id` column. -/
def c5AmendedProp (size : Int) (tIdx : Nat) (polarsAgg sqlAgg : WTable → WTable)
    (st : WTable) : Prop :=
  HoppingWindowExecutor.done size tIdx sqlAgg .onEvent (some st)
    = .ok (some (sqlAgg (HoppingWindowExecutor.addWindowIds size tIdx st))) ∧
  HoppingWindowExecutor.done size tIdx sqlAgg .onEvent none = .ok none ∧
  HoppingWindowExecutor.done size tIdx sqlAgg .onCompletion (some st)
    = .error .attributeError ∧
  HoppingWindowExecutor.done size tIdx sqlAgg .onCompletion none = .ok none ∧
  SlidingWindowExecutor.done (some st) = none ∧
  SlidingWindowExecutor.done none = none ∧
  SessionWindowExecutor.done polarsAgg sqlAgg .onCompletion (some st)
    = .ok (some (polarsAgg (SessionWindowExecutor.addLitWindowId st))) ∧
  SessionWindowExecutor.done polarsAgg sqlAgg .onCompletion none = .ok none ∧
  SessionWindowExecutor.done polarsAgg sqlAgg .onEvent (some st) = .error .binderError ∧
  (∀ w : WTable, "__window_id" ∉ (SessionWindowExecutor.dropCol "__window_id" w).cols)

/-- Claim C5 (amended): hopping under the on-event trigger and session under the
on-completion trigger aggregate the remaining buffered state as one final closed
window/session and return the no-result value when no state was accumulated; the
sliding executor's `done` always returns the no-result value; hopping under the
on-completion trigger raises `AttributeError` on non-empty state (`self.aggregations`
is never assigned), and session under the on-event trigger fails with a binder error
(its state lacks the `__window_id` column the query partitions by, having dropped it
in `execute`). -/
theorem c5_window_finalize (size : Int) (tIdx : Nat) (polarsAgg sqlAgg : WTable → WTable)
    (st : WTable) (hne : 0 < st.rows.length) (hnc : "__window_id" ∉ st.cols) :
    c5AmendedProp size tIdx polarsAgg sqlAgg st := by
  have hne2 : ¬ st.rows.length = 0 := by omega
  refine ⟨?_, rfl, ?_, rfl, rfl, rfl, ?_, rfl, ?_, ?_⟩
  · simp [HoppingWindowExecutor.done, hne]
  · simp [HoppingWindowExecutor.done, hne]
  · simp [SessionWindowExecutor.done, hne2]
  · simp [SessionWindowExecutor.done, hne2, SessionWindowExecutor.duckdbWindowAgg, hnc,
      Except.map]
  · intro w
    simp [SessionWindowExecutor.dropCol]

/-- Auxiliary closed fact used as the hypothesis record of `c5_window_finalize`,
instantiated at a concrete input. -/
theorem c5_window_finalize_witness :
    (0 < (WTable.mk ["ts"] [[0]]).rows.length ∧
      "__window_id" ∉ (WTable.mk ["ts"] [[0]]).cols) ∧
    c5AmendedProp 10 0 id id ⟨["ts"], [[0]]⟩ :=
  ⟨⟨by decide, by decide⟩, c5_window_finalize 10 0 id id ⟨["ts"], [[0]]⟩
    (by decide) (by decide)⟩


/-! ## BuildProbeJoinExecutor (src/pyquokka/executors.py lines 495-546)

Stream 0 is the probe side, stream 1 the build side.  The join itself
(`batch.join(self.state, ...)` plus the `key_to_keep` rename) and the build-side sort
are abstract functions `doJoin` and `sortState`. -/

namespace BuildProbeJoinExecutor

/-- The two-phase state machine flag `self.phase`. -/
inductive Phase where
  | build
  | probe
  deriving DecidableEq, Repr

/-- Mutable state: `self.state` (the build-side rows) and `self.phase`. -/
structure BPState (α : Type) where
  state : Option (List α)
  phase : Phase
  deriving Repr

/-- Fresh executor state: `self.state = None`, `self.phase = "build"`. -/
def initState (α : Type) : BPState α := ⟨none, Phase.build⟩

/-- Embedding of `BuildProbeJoinExecutor.execute`: filter the batch list; on stream 1
assert the build phase and append to build state; on stream 0 with no build state
return the batch itself for an anti join (nothing else); otherwise sort the build
state once, flip to the probe phase, and join. -/
def execute {α : Type} (doJoin : List α → List α → List α) (sortState : List α → List α)
    (how : String) (st : BPState α) (batches : List (Option (List α))) (streamId : Nat) :
    Except PyErr (BPState α × Option (List α)) :=
  let bs := cleanBatches batches
  if bs.isEmpty then .ok (st, none)
  else
    let batch := bs.flatten
    if streamId = 1 then
      if st.phase = Phase.probe then .error .assertionError
      else
        match st.state with
        | none => .ok (⟨some batch, st.phase⟩, none)
        | some s => .ok (⟨some (s ++ batch), st.phase⟩, none)
    else if streamId = 0 then
      match st.state with
      | none =>
        if how = "anti" then .ok (st, some batch) else .ok (st, none)
      | some s =>
        let s2 := if st.phase = Phase.build then sortState s else s
        .ok (⟨some s2, Phase.probe⟩, some (doJoin batch s2))
    else .ok (st, none)

/-- One call of the executor protocol: a batch list and its stream id. -/
abbrev Call (α : Type) := List (Option (List α)) × Nat

/-- Run a sequence of calls from a state; an assertion failure aborts the run. -/
def run {α : Type} (doJoin : List α → List α → List α) (sortState : List α → List α)
    (how : String) : BPState α → List (Call α) → Except PyErr (BPState α)
  | st, [] => .ok st
  | st, c :: cs =>
    match execute doJoin sortState how st c.1 c.2 with
    | .error e => .error e
    | .ok (st2, _) => run doJoin sortState how st2 cs

/-- A call that actually delivers data on stream `sid` (non-`None`, non-empty). -/
def isNECall {α : Type} (c : Call α) (sid : Nat) : Prop :=
  c.2 = sid ∧ cleanBatches c.1 ≠ []

/-- The call sequence contains, in order, one data-carrying call per stream id of
`sids` (not necessarily adjacent). -/
def seqNE {α : Type} : List Nat → List (Call α) → Prop
  | [], _ => True
  | sid :: sids, cs => ∃ l1 c l2, cs = l1 ++ c :: l2 ∧ isNECall c sid ∧ seqNE sids l2

theorem seqNE_nil_calls {α : Type} (sid : Nat) (sids : List Nat) :
    ¬ seqNE (sid :: sids) ([] : List (Call α)) := by
  rintro ⟨l1, c, l2, hEq, _, _⟩
  have := congrArg List.length hEq
  simp at this
  omega

theorem seqNE_cons {α : Type} (sid : Nat) (sids : List Nat) (c : Call α)
    (cs : List (Call α)) :
    seqNE (sid :: sids) (c :: cs) ↔
      (isNECall c sid ∧ seqNE sids cs) ∨ seqNE (sid :: sids) cs := by
  constructor
  · rintro ⟨l1, c1, l2, hEq, hne, hrest⟩
    cases l1 with
    | nil =>
      simp at hEq
      exact Or.inl ⟨hEq.1 ▸ hne, hEq.2 ▸ hrest⟩
    | cons a t =>
      simp at hEq
      refine Or.inr ⟨t, c1, l2, hEq.2, hne, hrest⟩
  · rintro (⟨hne, hrest⟩ | ⟨l1, c1, l2, hEq, hne, hrest⟩)
    · exact ⟨[], c, cs, rfl, hne, hrest⟩
    · exact ⟨c :: l1, c1, l2, by rw [hEq, List.cons_append], hne, hrest⟩

theorem seqNE_append_left {α : Type} (sids : List Nat) (l cs : List (Call α))
    (h : seqNE sids cs) : seqNE sids (l ++ cs) := by
  induction l with
  | nil => exact h
  | cons a t ih =>
    cases sids with
    | nil => trivial
    | cons sid rest => exact (seqNE_cons sid rest a (t ++ cs)).mpr (Or.inr ih)

theorem seqNE_weaken {α : Type} (sid : Nat) (sids : List Nat) (cs : List (Call α))
    (h : seqNE (sid :: sids) cs) : seqNE sids cs := by
  obtain ⟨l1, c, l2, hEq, _, hrest⟩ := h
  subst hEq
  cases sids with
  | nil => trivial
  | cons s2 rest =>
    apply seqNE_append_left
    exact (seqNE_cons s2 rest c l2).mpr (Or.inr hrest)

end BuildProbeJoinExecutor

/-- Claim C8 (confirmed): before any build row has been seen (`self.state is None`),
probing with `how="anti"` returns the probe batch unchanged and probing with
`how="inner"` returns no rows (the call emits nothing). -/
theorem c8_probe_before_build {α : Type} (doJoin : List α → List α → List α)
    (sortState : List α → List α) (batches : List (Option (List α)))
    (hne : cleanBatches batches ≠ []) :
    BuildProbeJoinExecutor.execute doJoin sortState "anti"
        (BuildProbeJoinExecutor.initState α) batches 0
      = .ok (BuildProbeJoinExecutor.initState α, some (cleanBatches batches).flatten) ∧
    BuildProbeJoinExecutor.execute doJoin sortState "inner"
        (BuildProbeJoinExecutor.initState α) batches 0
      = .ok (BuildProbeJoinExecutor.initState α, none) := by
  have hisE : (cleanBatches batches).isEmpty = false := by
    cases h : cleanBatches batches with
    | nil => exact absurd h hne
    | cons a t => rfl
  constructor <;>
    simp [BuildProbeJoinExecutor.execute, hisE, BuildProbeJoinExecutor.initState]

/-- Auxiliary closed fact used as the hypothesis record of `c8_probe_before_build`,
instantiated at a concrete input. -/
theorem c8_probe_before_build_witness :
    (cleanBatches [some [1, 2], none, some ([] : List Nat)] ≠ []) ∧
    (BuildProbeJoinExecutor.execute (fun a _ => a) id "anti"
        (BuildProbeJoinExecutor.initState Nat) [some [1, 2], none, some []] 0
      = .ok (BuildProbeJoinExecutor.initState Nat,
          some (cleanBatches [some [1, 2], none, some []]).flatten) ∧
     BuildProbeJoinExecutor.execute (fun a _ => a) id "inner"
        (BuildProbeJoinExecutor.initState Nat) [some [1, 2], none, some []] 0
      = .ok (BuildProbeJoinExecutor.initState Nat, none)) :=
  ⟨by decide, c8_probe_before_build (fun a _ => a) id [some [1, 2], none, some []]
    (by decide)⟩


namespace BuildProbeJoinExecutor

theorem execute_noData {α : Type} (doJoin : List α → List α → List α)
    (sortState : List α → List α) (how : String) (st : BPState α)
    (batches : List (Option (List α))) (sid : Nat)
    (h : (cleanBatches batches).isEmpty = true) :
    execute doJoin sortState how st batches sid = .ok (st, none) := by
  simp [execute, h]

theorem execute_build_probePhase {α : Type} (doJoin : List α → List α → List α)
    (sortState : List α → List α) (how : String) (st : BPState α)
    (batches : List (Option (List α)))
    (h : (cleanBatches batches).isEmpty = false) (hph : st.phase = Phase.probe) :
    execute doJoin sortState how st batches 1 = .error .assertionError := by
  simp [execute, h, hph]

theorem execute_build_buildPhase {α : Type} (doJoin : List α → List α → List α)
    (sortState : List α → List α) (how : String) (st : BPState α)
    (batches : List (Option (List α)))
    (h : (cleanBatches batches).isEmpty = false) (hph : st.phase = Phase.build) :
    ∃ s, execute doJoin sortState how st batches 1 = .ok (⟨some s, Phase.build⟩, none) := by
  cases hs : st.state with
  | none =>
    refine ⟨(cleanBatches batches).flatten, ?_⟩
    simp [execute, h, hph, hs]
  | some s =>
    refine ⟨s ++ (cleanBatches batches).flatten, ?_⟩
    simp [execute, h, hph, hs]

theorem execute_probe_none {α : Type} (doJoin : List α → List α → List α)
    (sortState : List α → List α) (how : String) (st : BPState α)
    (batches : List (Option (List α)))
    (h : (cleanBatches batches).isEmpty = false) (hst : st.state = none) :
    execute doJoin sortState how st batches 0
      = .ok (st, if how = "anti" then some (cleanBatches batches).flatten else none) := by
  by_cases hh : how = "anti" <;> simp [execute, h, hst, hh]

theorem execute_probe_some {α : Type} (doJoin : List α → List α → List α)
    (sortState : List α → List α) (how : String) (st : BPState α)
    (batches : List (Option (List α))) (s : List α)
    (h : (cleanBatches batches).isEmpty = false) (hst : st.state = some s) :
    ∃ s2 out, execute doJoin sortState how st batches 0
      = .ok (⟨some s2, Phase.probe⟩, some out) := by
  refine ⟨if st.phase = Phase.build then sortState s else s,
    doJoin (cleanBatches batches).flatten (if st.phase = Phase.build then sortState s else s),
    ?_⟩
  simp [execute, h, hst]

theorem execute_otherStream {α : Type} (doJoin : List α → List α → List α)
    (sortState : List α → List α) (how : String) (st : BPState α)
    (batches : List (Option (List α))) (sid : Nat)
    (h : (cleanBatches batches).isEmpty = false) (h0 : sid ≠ 0) (h1 : sid ≠ 1) :
    execute doJoin sortState how st batches sid = .ok (st, none) := by
  simp [execute, h, h0, h1]

theorem run_cons {α : Type} (doJoin : List α → List α → List α)
    (sortState : List α → List α) (how : String) (st : BPState α) (c : Call α)
    (cs : List (Call α)) :
    run doJoin sortState how st (c :: cs)
      = match execute doJoin sortState how st c.1 c.2 with
        | .error e => .error e
        | .ok (st2, _) => run doJoin sortState how st2 cs := rfl

/-- Characterisation of whole runs of the build/probe executor, by the phase and
build-state shape of the starting state: when the run fails, and when it ends in the
probe phase, in terms of the data-carrying calls it contains. -/
theorem run_spec {α : Type} (doJoin : List α → List α → List α)
    (sortState : List α → List α) (how : String) :
    ∀ (cs : List (Call α)) (st : BPState α),
      (st.phase = Phase.probe →
        (((∃ e, run doJoin sortState how st cs = .error e) ↔ seqNE [1] cs) ∧
         (∀ st2, run doJoin sortState how st cs = .ok st2 → st2.phase = Phase.probe))) ∧
      (st.phase = Phase.build → st.state = none →
        (((∃ e, run doJoin sortState how st cs = .error e) ↔ seqNE [1, 0, 1] cs) ∧
         (∀ st2, run doJoin sortState how st cs = .ok st2 →
            (st2.phase = Phase.probe ↔ seqNE [1, 0] cs)))) ∧
      (st.phase = Phase.build → st.state ≠ none →
        (((∃ e, run doJoin sortState how st cs = .error e) ↔ seqNE [0, 1] cs) ∧
         (∀ st2, run doJoin sortState how st cs = .ok st2 →
            (st2.phase = Phase.probe ↔ seqNE [0] cs)))) := by
  intro cs
  induction cs with
  | nil =>
    intro st
    refine ⟨?_, ?_, ?_⟩
    · intro hph
      refine ⟨⟨?_, ?_⟩, ?_⟩
      · rintro ⟨e, he⟩
        simp [run] at he
      · intro hseq
        exact absurd hseq (seqNE_nil_calls _ _)
      · intro st2 h
        simp [run] at h
        rw [← h]
        exact hph
    · intro hph _
      refine ⟨⟨?_, ?_⟩, ?_⟩
      · rintro ⟨e, he⟩
        simp [run] at he
      · intro hseq
        exact absurd hseq (seqNE_nil_calls _ _)
      · intro st2 h
        simp [run] at h
        rw [← h]
        constructor
        · intro hpr
          rw [hph] at hpr
          exact absurd hpr (by decide)
        · intro hseq
          exact absurd hseq (seqNE_nil_calls _ _)
    · intro hph _
      refine ⟨⟨?_, ?_⟩, ?_⟩
      · rintro ⟨e, he⟩
        simp [run] at he
      · intro hseq
        exact absurd hseq (seqNE_nil_calls _ _)
      · intro st2 h
        simp [run] at h
        rw [← h]
        constructor
        · intro hpr
          rw [hph] at hpr
          exact absurd hpr (by decide)
        · intro hseq
          exact absurd hseq (seqNE_nil_calls _ _)
  | cons c cs ih =>
    intro st
    by_cases hcl : (cleanBatches c.1).isEmpty = true
    · -- the call carries no data: state unchanged, no pattern can start here
      have hnotNE : ∀ sid, ¬ isNECall c sid := by
        intro sid hne
        exact hne.2 (List.isEmpty_iff.mp hcl)
      have hexec := execute_noData doJoin sortState how st c.1 c.2 hcl
      have hrun : run doJoin sortState how st (c :: cs)
          = run doJoin sortState how st cs := by
        rw [run_cons, hexec]
      obtain ⟨ih1, ih2, ih3⟩ := ih st
      refine ⟨?_, ?_, ?_⟩
      · intro hph
        obtain ⟨ihe, ihk⟩ := ih1 hph
        refine ⟨?_, ?_⟩
        · rw [hrun, ihe, seqNE_cons]
          constructor
          · exact Or.inr
          · rintro (⟨hne, _⟩ | hh)
            · exact absurd hne (hnotNE _)
            · exact hh
        · intro st2 h
          rw [hrun] at h
          exact ihk st2 h
      · intro hph hst
        obtain ⟨ihe, ihk⟩ := ih2 hph hst
        refine ⟨?_, ?_⟩
        · rw [hrun, ihe, seqNE_cons]
          constructor
          · exact Or.inr
          · rintro (⟨hne, _⟩ | hh)
            · exact absurd hne (hnotNE _)
            · exact hh
        · intro st2 h
          rw [hrun] at h
          rw [ihk st2 h, seqNE_cons]
          constructor
          · exact Or.inr
          · rintro (⟨hne, _⟩ | hh)
            · exact absurd hne (hnotNE _)
            · exact hh
      · intro hph hst
        obtain ⟨ihe, ihk⟩ := ih3 hph hst
        refine ⟨?_, ?_⟩
        · rw [hrun, ihe, seqNE_cons]
          constructor
          · exact Or.inr
          · rintro (⟨hne, _⟩ | hh)
            · exact absurd hne (hnotNE _)
            · exact hh
        · intro st2 h
          rw [hrun] at h
          rw [ihk st2 h, seqNE_cons]
          constructor
          · exact Or.inr
          · rintro (⟨hne, _⟩ | hh)
            · exact absurd hne (hnotNE _)
            · exact hh
    · -- the call carries data
      have hclf : (cleanBatches c.1).isEmpty = false := by
        cases hx : (cleanBatches c.1).isEmpty
        · rfl
        · exact absurd hx hcl
      have hNE1 : c.2 = 1 → isNECall c 1 := by
        intro h2
        exact ⟨h2, fun hh => by rw [hh] at hclf; simp at hclf⟩
      have hNE0 : c.2 = 0 → isNECall c 0 := by
        intro h2
        exact ⟨h2, fun hh => by rw [hh] at hclf; simp at hclf⟩
      refine ⟨?_, ?_, ?_⟩
      · -- starting in probe phase
        intro hph
        rcases Nat.decEq c.2 1 with h1 | h1
        · -- stream id is not 1
          rcases Nat.decEq c.2 0 with h0 | h0
          · -- stream id is neither 0 nor 1
            have hexec := execute_otherStream doJoin sortState how st c.1 c.2 hclf h0 h1
            have hrun : run doJoin sortState how st (c :: cs)
                = run doJoin sortState how st cs := by
              rw [run_cons, hexec]
            obtain ⟨ihe, ihk⟩ := (ih st).1 hph
            refine ⟨?_, ?_⟩
            · rw [hrun, ihe, seqNE_cons]
              constructor
              · exact Or.inr
              · rintro (⟨hne, _⟩ | hh)
                · exact absurd hne.1 h1
                · exact hh
            · intro st2 h
              rw [hrun] at h
              exact ihk st2 h
          · -- stream id 0 (probe)
            -- probe-stream call in probe phase: state may be none or some
            cases hs : st.state with
            | none =>
              have hexec := execute_probe_none doJoin sortState how st c.1 hclf hs
              have hrun : run doJoin sortState how st (c :: cs)
                  = run doJoin sortState how st cs := by
                rw [run_cons, h0, hexec]
              obtain ⟨ihe, ihk⟩ := (ih st).1 hph
              refine ⟨?_, ?_⟩
              · rw [hrun, ihe, seqNE_cons]
                constructor
                · exact Or.inr
                · rintro (⟨hne, _⟩ | hh)
                  · exact absurd hne.1 (by omega)
                  · exact hh
              · intro st2 h
                rw [hrun] at h
                exact ihk st2 h
            | some s =>
              obtain ⟨s2, out, hexec⟩ :=
                execute_probe_some doJoin sortState how st c.1 s hclf hs
              have hrun : run doJoin sortState how st (c :: cs)
                  = run doJoin sortState how ⟨some s2, Phase.probe⟩ cs := by
                rw [run_cons, h0, hexec]
              obtain ⟨ihe, ihk⟩ := (ih ⟨some s2, Phase.probe⟩).1 rfl
              refine ⟨?_, ?_⟩
              · rw [hrun, ihe, seqNE_cons]
                constructor
                · exact Or.inr
                · rintro (⟨hne, _⟩ | hh)
                  · exact absurd hne.1 (by omega)
                  · exact hh
              · intro st2 h
                rw [hrun] at h
                exact ihk st2 h
        · -- stream id 1 (build)
          -- build-stream call in probe phase: the assertion fails
          have hexec := execute_build_probePhase doJoin sortState how st c.1 hclf hph
          have hrun : run doJoin sortState how st (c :: cs)
              = .error .assertionError := by
            rw [run_cons, h1, hexec]
          refine ⟨?_, ?_⟩
          · rw [hrun, seqNE_cons]
            constructor
            · intro _
              exact Or.inl ⟨hNE1 h1, trivial⟩
            · intro _
              exact ⟨.assertionError, rfl⟩
          · intro st2 h
            rw [hrun] at h
            exact absurd h (by simp)
      · -- starting in build phase with no build state
        intro hph hst
        rcases Nat.decEq c.2 1 with h1 | h1
        · -- stream id is not 1
          rcases Nat.decEq c.2 0 with h0 | h0
          · -- stream id is neither 0 nor 1
            have hexec := execute_otherStream doJoin sortState how st c.1 c.2 hclf h0 h1
            have hrun : run doJoin sortState how st (c :: cs)
                = run doJoin sortState how st cs := by
              rw [run_cons, hexec]
            obtain ⟨ihe, ihk⟩ := (ih st).2.1 hph hst
            refine ⟨?_, ?_⟩
            · rw [hrun, ihe, seqNE_cons]
              constructor
              · exact Or.inr
              · rintro (⟨hne, _⟩ | hh)
                · exact absurd hne.1 h1
                · exact hh
            · intro st2 h
              rw [hrun] at h
              rw [ihk st2 h, seqNE_cons]
              constructor
              · exact Or.inr
              · rintro (⟨hne, _⟩ | hh)
                · exact absurd hne.1 h1
                · exact hh
          · -- stream id 0 (probe)
            -- early probe call with no build state: nothing changes
            have hexec := execute_probe_none doJoin sortState how st c.1 hclf hst
            have hrun : run doJoin sortState how st (c :: cs)
                = run doJoin sortState how st cs := by
              rw [run_cons, h0, hexec]
            obtain ⟨ihe, ihk⟩ := (ih st).2.1 hph hst
            refine ⟨?_, ?_⟩
            · rw [hrun, ihe, seqNE_cons]
              constructor
              · exact Or.inr
              · rintro (⟨hne, _⟩ | hh)
                · exact absurd hne.1 (by omega)
                · exact hh
            · intro st2 h
              rw [hrun] at h
              rw [ihk st2 h, seqNE_cons]
              constructor
              · exact Or.inr
              · rintro (⟨hne, _⟩ | hh)
                · exact absurd hne.1 (by omega)
                · exact hh
        · -- stream id 1 (build)
          -- first data-carrying build call: state becomes non-None, phase stays build
          obtain ⟨s, hexec⟩ := execute_build_buildPhase doJoin sortState how st c.1 hclf hph
          have hrun : run doJoin sortState how st (c :: cs)
              = run doJoin sortState how ⟨some s, Phase.build⟩ cs := by
            rw [run_cons, h1, hexec]
          obtain ⟨ihe, ihk⟩ := (ih ⟨some s, Phase.build⟩).2.2 rfl (by simp)
          refine ⟨?_, ?_⟩
          · rw [hrun, ihe, seqNE_cons]
            constructor
            · intro hh
              exact Or.inl ⟨hNE1 h1, hh⟩
            · rintro (⟨_, hh⟩ | hh)
              · exact hh
              · exact seqNE_weaken _ _ _ hh
          · intro st2 h
            rw [hrun] at h
            rw [ihk st2 h, seqNE_cons]
            constructor
            · intro hh
              exact Or.inl ⟨hNE1 h1, hh⟩
            · rintro (⟨_, hh⟩ | hh)
              · exact hh
              · exact seqNE_weaken _ _ _ hh
      · -- starting in build phase with non-None build state
        intro hph hst
        rcases Nat.decEq c.2 1 with h1 | h1
        · -- stream id is not 1
          rcases Nat.decEq c.2 0 with h0 | h0
          · -- stream id is neither 0 nor 1
            have hexec := execute_otherStream doJoin sortState how st c.1 c.2 hclf h0 h1
            have hrun : run doJoin sortState how st (c :: cs)
                = run doJoin sortState how st cs := by
              rw [run_cons, hexec]
            obtain ⟨ihe, ihk⟩ := (ih st).2.2 hph hst
            refine ⟨?_, ?_⟩
            · rw [hrun, ihe, seqNE_cons]
              constructor
              · exact Or.inr
              · rintro (⟨hne, _⟩ | hh)
                · exact absurd hne.1 h0
                · exact hh
            · intro st2 h
              rw [hrun] at h
              rw [ihk st2 h, seqNE_cons]
              constructor
              · exact Or.inr
              · rintro (⟨hne, _⟩ | hh)
                · exact absurd hne.1 h0
                · exact hh
          · -- stream id 0 (probe)
            -- probing with real build state: the phase flips to probe
            cases hs : st.state with
            | none => exact absurd hs hst
            | some s =>
              obtain ⟨s2, out, hexec⟩ :=
                execute_probe_some doJoin sortState how st c.1 s hclf hs
              have hrun : run doJoin sortState how st (c :: cs)
                  = run doJoin sortState how ⟨some s2, Phase.probe⟩ cs := by
                rw [run_cons, h0, hexec]
              obtain ⟨ihe, ihk⟩ := (ih ⟨some s2, Phase.probe⟩).1 rfl
              refine ⟨?_, ?_⟩
              · rw [hrun, ihe, seqNE_cons]
                constructor
                · intro hh
                  exact Or.inl ⟨hNE0 h0, hh⟩
                · rintro (⟨_, hh⟩ | hh)
                  · exact hh
                  · exact seqNE_weaken _ _ _ hh
              · intro st2 h
                rw [hrun] at h
                rw [seqNE_cons]
                constructor
                · intro _
                  exact Or.inl ⟨hNE0 h0, trivial⟩
                · intro _
                  exact ihk st2 h
        · -- stream id 1 (build)
          -- another build call while still building: state stays non-None
          obtain ⟨s, hexec⟩ := execute_build_buildPhase doJoin sortState how st c.1 hclf hph
          have hrun : run doJoin sortState how st (c :: cs)
              = run doJoin sortState how ⟨some s, Phase.build⟩ cs := by
            rw [run_cons, h1, hexec]
          obtain ⟨ihe, ihk⟩ := (ih ⟨some s, Phase.build⟩).2.2 rfl (by simp)
          refine ⟨?_, ?_⟩
          · rw [hrun, ihe, seqNE_cons]
            constructor
            · exact Or.inr
            · rintro (⟨hne, _⟩ | hh)
              · exact absurd hne.1 (by omega)
              · exact hh
          · intro st2 h
            rw [hrun] at h
            rw [ihk st2 h, seqNE_cons]
            constructor
            · exact Or.inr
            · rintro (⟨hne, _⟩ | hh)
              · exact absurd hne.1 (by omega)
              · exact hh

end BuildProbeJoinExecutor


/-- Claim C10 (confirmed): from a fresh build/probe executor, a run aborts with the
build-phase assertion exactly when some data-carrying build call is followed (not
necessarily adjacently) by a data-carrying probe call and then another data-carrying
build call — i.e. a build batch arrives after a probe batch has been processed with
non-`None` build state.  Moreover a completed run ends in the probe phase exactly when
a data-carrying build call was followed by a data-carrying probe call, so a probe
batch processed before any build batch leaves the phase at build and later build
batches are still accepted. -/
theorem c10_buildprobe_assertion {α : Type} (doJoin : List α → List α → List α)
    (sortState : List α → List α) (how : String) (cs : List (BuildProbeJoinExecutor.Call α)) :
    ((∃ e, BuildProbeJoinExecutor.run doJoin sortState how
        (BuildProbeJoinExecutor.initState α) cs = .error e)
      ↔ BuildProbeJoinExecutor.seqNE [1, 0, 1] cs) ∧
    (∀ st2, BuildProbeJoinExecutor.run doJoin sortState how
        (BuildProbeJoinExecutor.initState α) cs = .ok st2 →
      (st2.phase = BuildProbeJoinExecutor.Phase.probe ↔
        BuildProbeJoinExecutor.seqNE [1, 0] cs)) :=
  (BuildProbeJoinExecutor.run_spec doJoin sortState how cs
    (BuildProbeJoinExecutor.initState α)).2.1 rfl rfl

/-- Auxiliary closed fact extracted through `c10_buildprobe_assertion` at a concrete
trace: build, probe, build — the run fails, hence the trace exhibits the
build-probe-build pattern. -/
theorem c10_buildprobe_assertion_witness :
    BuildProbeJoinExecutor.seqNE [1, 0, 1]
      ([([some [1]], 1), ([some [2]], 0), ([some [3]], 1)] :
        List (BuildProbeJoinExecutor.Call Nat)) :=
  (c10_buildprobe_assertion (fun a _ => a) id "inner"
      [([some [1]], 1), ([some [2]], 0), ([some [3]], 1)]).1.mp
    ⟨.assertionError, rfl⟩


/-! ## SuperFastSortExecutor (src/pyquokka/executors.py lines 732-832)

The two-phase external merge sort.  A row carries its sort key and an opaque payload
tag.  The producer (`execute`) flushes each call's input, sorted, as a new spill file
and appends `(key value, file number)` pairs to the in-memory sparse index
(`self.in_mem_state`); the consumer (`done`) sorts the index once and serves
consecutive index slices by pulling rows from per-file read-ahead positions. -/

/-- A row of the merge sort: sort key plus an opaque payload tag. -/
structure SRow where
  key : Int
  tag : Nat
  deriving DecidableEq, Repr

namespace SuperFastSortExecutor

/-- An index entry: `(key value, file number)` (`self.in_mem_state` rows). -/
abbrev Entry := Int × Nat

/-- Producer state: the spill files written so far (`self.fileno` is their count) and
the sparse in-memory index. -/
structure PState where
  files : List (List SRow)
  in_mem_state : List Entry
  deriving DecidableEq, Repr

/-- Fresh producer state. -/
def initState : PState := ⟨[], []⟩

/-- The sort order on rows (`batch.sort(self.key)`). -/
def keyLe (a b : SRow) : Prop := a.key ≤ b.key

instance : DecidableRel keyLe := fun a b => inferInstanceAs (Decidable (a.key ≤ b.key))

instance : IsTotal SRow keyLe := ⟨fun a b => Int.le_total a.key b.key⟩

instance : IsTrans SRow keyLe := ⟨fun _ _ _ h1 h2 => le_trans h1 h2⟩

/-- The sort order on index entries (`self.in_mem_state.sort("values")`). -/
def entLe (a b : Entry) : Prop := a.1 ≤ b.1

instance : DecidableRel entLe := fun a b => inferInstanceAs (Decidable (a.1 ≤ b.1))

instance : IsTotal Entry entLe := ⟨fun a b => Int.le_total a.1 b.1⟩

instance : IsTrans Entry entLe := ⟨fun _ _ _ h1 h2 => le_trans h1 h2⟩

/-- Embedding of `SuperFastSortExecutor.execute`: filter the batches, concatenate,
sort by key, append the sorted batch as spill file number `self.fileno`, and append
`(key, fileno)` index entries in the sorted batch's row order. -/
def execute (st : PState) (batches : List (Option (List SRow))) : PState :=
  let bs := cleanBatches batches
  if bs.isEmpty then st
  else
    let sorted_batch := List.insertionSort keyLe bs.flatten
    ⟨st.files ++ [sorted_batch],
     st.in_mem_state ++ sorted_batch.map (fun r => (r.key, st.files.length))⟩

/-- Feed a sequence of producer calls to a fresh executor. -/
def runProducer (calls : List (List (Option (List SRow)))) : PState :=
  calls.foldl execute initState

/-- All rows delivered over a sequence of calls, in arrival order. -/
def allInputRows (calls : List (List (Option (List SRow)))) : List SRow :=
  (calls.map (fun bs => (cleanBatches bs).flatten)).flatten

/-- Rows required from file `f` by the current output slice
(`file_requirements`, the groupby count of the slice's index entries). -/
def countFile (c : List Entry) (f : Nat) : Nat :=
  (c.filter (fun e => decide (e.2 = f))).length

/-- The distinct spill files referenced by the current slice (`groupby("file_no")`).
-/
def filesOf (c : List Entry) : List Nat := (c.map Prod.snd).dedup

/-- Serve one output slice: take the required row count of each referenced file from
the front of that file's remaining-row stream (`cached_batches[source][:desired]`
refilled on demand from the spill file; exhausting a file first raises), advancing
the streams. -/
def pullChunk (rem : Nat → List SRow) (c : List Entry) :
    Option (List SRow × (Nat → List SRow)) :=
  if (filesOf c).all (fun f => decide (countFile c f ≤ (rem f).length)) then
    some (((filesOf c).map (fun f => (rem f).take (countFile c f))).flatten,
      fun f => (rem f).drop (countFile c f))
  else none

/-- Serve every output slice in turn, sorting each slice's pulled rows by key
(`polars.concat(desired_batches).sort(self.key)`). -/
def consumeChunks (rem : Nat → List SRow) :
    List (List Entry) → Option (List (List SRow))
  | [] => some []
  | c :: cs =>
    match pullChunk rem c with
    | none => none
    | some pr =>
      match consumeChunks pr.2 cs with
      | none => none
      | some out => some (List.insertionSort keyLe pr.1 :: out)

/-- Embedding of `SuperFastSortExecutor.done`: with no spill file the state is `None`
and `None.sort` raises; otherwise sort the index by key, slice it into
`output_batch_rows`-sized chunks and serve them from the spill files. -/
def done (B : Nat) (st : PState) : Except PyErr (List (List SRow)) :=
  if st.files.isEmpty then .error .attributeError
  else
    let sortedIndex := List.insertionSort entLe st.in_mem_state
    match consumeChunks (fun f => st.files.getD f []) (chunksOf B sortedIndex) with
    | none => .error .mergeExhausted
    | some out => .ok out

/-- The rows still unserved across the first `K` file streams. -/
def totalRem (rem : Nat → List SRow) (K : Nat) : List SRow :=
  ((List.range K).map rem).flatten

theorem partition_perm_aux (fs : List Nat) (hnd : fs.Nodup) :
    ∀ c : List Entry, (∀ e ∈ c, e.2 ∈ fs) →
      ((fs.map (fun f => c.filter (fun e => decide (e.2 = f)))).flatten).Perm c := by
  induction fs with
  | nil =>
    intro c hc
    have hcnil : c = [] := by
      cases c with
      | nil => rfl
      | cons e t => exact absurd (hc e (by simp)) (by simp)
    subst hcnil
    simp
  | cons a t ih =>
    intro c hc
    have hat : a ∉ t := (List.nodup_cons.mp hnd).1
    have hmem : ∀ e ∈ c.filter (fun e => !decide (e.2 = a)), e.2 ∈ t := by
      intro e he
      have h1 := List.mem_filter.mp he
      have h2 := hc e h1.1
      have h3 : ¬ e.2 = a := by simpa using h1.2
      cases List.mem_cons.mp h2 with
      | inl h => exact absurd h h3
      | inr h => exact h
    have ihc := ih (List.nodup_cons.mp hnd).2 _ hmem
    have heq : ∀ f ∈ t,
        (c.filter (fun e => !decide (e.2 = a))).filter (fun e => decide (e.2 = f))
          = c.filter (fun e => decide (e.2 = f)) := by
      intro f hf
      rw [List.filter_filter]
      apply List.filter_congr
      intro e _
      by_cases hef : e.2 = f
      · have hea : ¬ e.2 = a := by
          intro h
          exact hat (by rw [h.symm.trans hef]; exact hf)
        have hfa : ¬ f = a := fun h => hea (hef.trans h)
        simp [hef, hea, hfa]
      · simp [hef]
    have hmapeq : t.map (fun f => c.filter (fun e => decide (e.2 = f)))
        = t.map (fun f => (c.filter (fun e => !decide (e.2 = a))).filter
            (fun e => decide (e.2 = f))) := by
      apply List.map_congr_left
      intro f hf
      exact (heq f hf).symm
    simp only [List.map_cons, List.flatten_cons, hmapeq]
    exact (ihc.append_left _).trans (List.filter_append_perm _ c)

/-- The slice's entries, regrouped by distinct file number, are a permutation of the
slice. -/
theorem partition_perm (c : List Entry) :
    (((filesOf c).map (fun f => c.filter (fun e => decide (e.2 = f)))).flatten).Perm c :=
  partition_perm_aux (filesOf c) (List.nodup_dedup _) c
    (fun e he => by
      simp only [filesOf, List.mem_dedup]
      exact List.mem_map_of_mem Prod.snd he)

theorem flatten_map_append_perm {β : Type} (A B : Nat → List β) (L : List Nat) :
    ((L.map (fun f => A f ++ B f)).flatten).Perm ((L.map A).flatten ++ (L.map B).flatten) := by
  induction L with
  | nil => simp
  | cons a t ih =>
    simp only [List.map_cons, List.flatten_cons]
    refine (ih.append_left (A a ++ B a)).trans ?_
    rw [List.append_assoc (A a) (B a), List.append_assoc (A a) ((t.map A).flatten)]
    exact (List.perm_append_comm_assoc (B a) _ _).append_left (A a)

theorem flatten_map_extend_zero {β : Type} (X : Nat → List β) (L : List Nat)
    (P : Nat → Prop) [DecidablePred P]
    (hz : ∀ f ∈ L, ¬ P f → X f = []) :
    ((L.filter (fun f => decide (P f))).map X).flatten = (L.map X).flatten := by
  induction L with
  | nil => simp
  | cons a t ih =>
    have iht := ih (fun f hf => hz f (List.mem_cons_of_mem a hf))
    by_cases hp : P a
    · rw [List.filter_cons_of_pos (by simpa using hp)]
      simp only [List.map_cons, List.flatten_cons, iht]
    · rw [List.filter_cons_of_neg (by simpa using hp)]
      rw [iht]
      have hXa : X a = [] := hz a (by simp) hp
      simp [hXa]

theorem flatten_map_of_support {β : Type} (X : Nat → List β) (fs L : List Nat)
    (hnd : fs.Nodup) (hndL : L.Nodup) (hsub : ∀ f ∈ fs, f ∈ L)
    (hz : ∀ f ∈ L, f ∉ fs → X f = []) :
    ((fs.map X).flatten).Perm ((L.map X).flatten) := by
  have hperm : fs.Perm (L.filter (fun f => decide (f ∈ fs))) := by
    rw [List.perm_ext_iff_of_nodup hnd (hndL.filter _)]
    intro x
    simp only [List.mem_filter, decide_eq_true_eq]
    exact ⟨fun h => ⟨hsub x h, h⟩, fun h => h.2⟩
  have h2 : ((L.filter (fun f => decide (f ∈ fs))).map X).flatten = (L.map X).flatten :=
    flatten_map_extend_zero X L (fun f => f ∈ fs) hz
  exact h2 ▸ (hperm.map X).flatten

theorem range_map_getD {β : Type} (l : List β) (d : β) :
    (List.range l.length).map (fun i => l.getD i d) = l := by
  apply List.ext_getElem
  · simp
  · intro i h1 h2
    simp [List.getD, List.getElem?_eq_getElem h2]

theorem getD_append_lt {β : Type} (l1 l2 : List β) (d : β) (n : Nat) (h : n < l1.length) :
    (l1 ++ l2).getD n d = l1.getD n d := by
  induction l1 generalizing n with
  | nil => simp at h
  | cons a t ih =>
    cases n with
    | zero => rfl
    | succ m =>
      simp only [List.cons_append, List.getD_cons_succ]
      exact ih m (by simp only [List.length_cons] at h; omega)

theorem getD_append_self {β : Type} (l1 : List β) (b : β) (d : β) :
    (l1 ++ [b]).getD l1.length d = b := by
  induction l1 with
  | nil => rfl
  | cons a t ih => simpa using ih

theorem getD_append_gt {β : Type} (l1 : List β) (b : β) (d : β) (n : Nat) (h : l1.length < n) :
    (l1 ++ [b]).getD n d = d := by
  refine List.getD_eq_default _ _ ?_
  simp only [List.length_append, List.length_cons, List.length_nil]
  omega

theorem execute_skip (st : PState) (bs : List (Option (List SRow)))
    (h : (cleanBatches bs).isEmpty = true) : execute st bs = st := by
  simp [execute, h]

theorem execute_flush (st : PState) (bs : List (Option (List SRow)))
    (h : ¬ (cleanBatches bs).isEmpty = true) :
    execute st bs = ⟨st.files ++ [List.insertionSort keyLe (cleanBatches bs).flatten],
      st.in_mem_state ++ (List.insertionSort keyLe (cleanBatches bs).flatten).map
        (fun r => (r.key, st.files.length))⟩ := by
  simp [execute, h]

theorem filter_map_tag (sb : List SRow) (L f : Nat) :
    ((sb.map (fun r => (r.key, L))).filter (fun e => decide (e.2 = f)))
      = if L = f then sb.map (fun r => (r.key, L)) else [] := by
  induction sb with
  | nil => simp
  | cons r t ih =>
    simp only [List.map_cons, List.filter_cons]
    by_cases h : L = f
    · simp [h, ih]
    · simp [h, ih]

/-- Producer invariant: every spill file is key-sorted, every index entry's file
number is in range, and the index's entries for file `f` are exactly file `f`'s keys
tagged `f`, in file order. -/
def PInv (st : PState) : Prop :=
  (∀ fl ∈ st.files, List.Sorted keyLe fl) ∧
  (∀ e ∈ st.in_mem_state, e.2 < st.files.length) ∧
  (∀ f, st.in_mem_state.filter (fun e => decide (e.2 = f))
      = (st.files.getD f []).map (fun r => (r.key, f)))

theorem pinv_init : PInv initState := by
  refine ⟨?_, ?_, ?_⟩ <;> intros <;> simp_all [initState, List.getD]

theorem pinv_execute (st : PState) (bs : List (Option (List SRow))) (h : PInv st) :
    PInv (execute st bs) := by
  by_cases hbs : (cleanBatches bs).isEmpty = true
  · rw [execute_skip st bs hbs]; exact h
  · rw [execute_flush st bs hbs]
    obtain ⟨h1, h2, h3⟩ := h
    refine ⟨?_, ?_, ?_⟩
    · intro fl hfl
      rcases List.mem_append.mp hfl with hl | hr
      · exact h1 fl hl
      · rw [List.mem_singleton.mp hr]
        exact List.sorted_insertionSort keyLe _
    · intro e he
      simp only [List.length_append, List.length_cons, List.length_nil]
      rcases List.mem_append.mp he with hl | hr
      · have := h2 e hl
        omega
      · obtain ⟨r, _, rfl⟩ := List.mem_map.mp hr
        simp
    · intro f
      rw [List.filter_append, h3 f, filter_map_tag]
      rcases Nat.lt_trichotomy f st.files.length with hf | hf | hf
      · rw [if_neg (by omega), List.append_nil, getD_append_lt _ _ _ _ hf]
      · subst hf
        have hold : st.files.getD st.files.length [] = []
          := List.getD_eq_default _ _ (le_refl _)
        rw [if_pos rfl, hold, getD_append_self]
        rfl
      · rw [if_neg (by omega), List.append_nil,
          getD_append_gt _ _ _ _ hf, List.getD_eq_default _ _ (by omega)]

theorem pinv_foldl : ∀ (calls : List (List (Option (List SRow)))) (st : PState),
    PInv st → PInv (calls.foldl execute st) := by
  intro calls
  induction calls with
  | nil => intro st h; exact h
  | cons c cs ih => intro st h; exact ih _ (pinv_execute st c h)

theorem pinv_runProducer (calls : List (List (Option (List SRow)))) :
    PInv (runProducer calls) :=
  pinv_foldl calls initState pinv_init

theorem foldl_files_perm : ∀ (calls : List (List (Option (List SRow)))) (st : PState),
    ((calls.foldl execute st).files.flatten).Perm
      (st.files.flatten ++ allInputRows calls) := by
  intro calls
  induction calls with
  | nil => intro st; simp [allInputRows]
  | cons c cs ih =>
    intro st
    have hstep : ((execute st c).files.flatten).Perm
        (st.files.flatten ++ (cleanBatches c).flatten) := by
      by_cases hbs : (cleanBatches c).isEmpty = true
      · rw [execute_skip st c hbs]
        have hnil : cleanBatches c = [] := List.isEmpty_iff.mp hbs
        simp [hnil]
      · rw [execute_flush st c hbs]
        simp only [List.flatten_append, List.flatten_cons, List.flatten_nil,
          List.append_nil]
        exact (List.perm_insertionSort keyLe _).append_left _
    have h2 : allInputRows (c :: cs) = (cleanBatches c).flatten ++ allInputRows cs := by
      simp [allInputRows]
    rw [List.foldl_cons, h2]
    refine (ih (execute st c)).trans ?_
    refine (hstep.append_right (allInputRows cs)).trans ?_
    rw [List.append_assoc]

theorem runProducer_files_perm (calls : List (List (Option (List SRow)))) :
    ((runProducer calls).files.flatten).Perm (allInputRows calls) := by
  have h := foldl_files_perm calls initState
  simpa [initState] using h

/-- After sorting the index of an invariant-satisfying producer state, the entries
for file `f` carry exactly file `f`'s keys, in key order. -/
theorem sortedIndex_filter (st : PState) (h : PInv st) (f : Nat) :
    ((List.insertionSort entLe st.in_mem_state).filter
        (fun e => decide (e.2 = f))).map Prod.fst
      = (st.files.getD f []).map SRow.key := by
  have hfile : List.Sorted keyLe (st.files.getD f []) := by
    by_cases hf : f < st.files.length
    · rw [List.getD_eq_getElem _ _ hf]
      exact h.1 _ (List.getElem_mem hf)
    · rw [List.getD_eq_default _ _ (Nat.le_of_not_lt hf)]
      exact List.sorted_nil
  have hperm : (((List.insertionSort entLe st.in_mem_state).filter
        (fun e => decide (e.2 = f))).map Prod.fst).Perm
      ((st.files.getD f []).map SRow.key) := by
    refine (((List.perm_insertionSort entLe st.in_mem_state).filter _).map Prod.fst).trans ?_
    rw [h.2.2 f, List.map_map]
    exact List.Perm.refl _
  have hsortL : List.Sorted (fun a b : Int => a ≤ b)
      (((List.insertionSort entLe st.in_mem_state).filter
        (fun e => decide (e.2 = f))).map Prod.fst) :=
    List.Pairwise.map _ (fun a b hab => hab)
      ((List.sorted_insertionSort entLe st.in_mem_state).filter _)
  have hsortR : List.Sorted (fun a b : Int => a ≤ b)
      ((st.files.getD f []).map SRow.key) :=
    List.Pairwise.map _ (fun a b hab => hab) hfile
  exact List.eq_of_perm_of_sorted hperm hsortL hsortR

/-- The rows one slice pulls: each referenced file contributes its required count
from the front of its stream, in file-group order. -/
def pulledRows (rem : Nat → List SRow) (c : List Entry) : List SRow :=
  ((filesOf c).map (fun f => (rem f).take (countFile c f))).flatten

/-- The per-file streams after serving one slice. -/
def remAfter (rem : Nat → List SRow) (c : List Entry) : Nat → List SRow :=
  fun f => (rem f).drop (countFile c f)

theorem consumeChunks_cons (rem : Nat → List SRow) (c : List Entry)
    (cs : List (List Entry)) :
    consumeChunks rem (c :: cs)
      = match pullChunk rem c with
        | none => none
        | some pr =>
          match consumeChunks pr.2 cs with
          | none => none
          | some out => some (List.insertionSort keyLe pr.1 :: out) := rfl

/-- If every file's remaining stream carries exactly the keys that the remaining
slices still demand of it (in order), consumption succeeds and produces one sorted
batch per slice, carrying that slice's keys, and in total a permutation of the
remaining rows. -/
theorem consumeChunks_spec (K : Nat) :
    ∀ (chunks : List (List Entry)) (rem : Nat → List SRow),
      (∀ f, (rem f).map SRow.key
        = (chunks.flatten.filter (fun e => decide (e.2 = f))).map Prod.fst) →
      (∀ e ∈ chunks.flatten, e.2 < K) →
      ∃ out, consumeChunks rem chunks = some out ∧
        out.length = chunks.length ∧
        (∀ i, ((out.getD i []).map SRow.key).Perm ((chunks.getD i []).map Prod.fst)) ∧
        (∀ b ∈ out, List.Sorted keyLe b) ∧
        out.flatten.Perm (totalRem rem K) := by
  intro chunks
  induction chunks with
  | nil =>
    intro rem hinv hbound
    refine ⟨[], rfl, rfl, ?_, ?_, ?_⟩
    · intro i
      simp
    · intro b hb
      simp at hb
    · have hrem : ∀ f, rem f = [] := by
        intro f
        have h := hinv f
        simp only [List.flatten_nil, List.filter_nil, List.map_nil] at h
        exact List.map_eq_nil_iff.mp h
      have htr : totalRem rem K = [] := by
        rw [totalRem, List.flatten_eq_nil_iff]
        intro x hx
        obtain ⟨g, _, rfl⟩ := List.mem_map.mp hx
        exact hrem g
      rw [htr]
      exact List.Perm.nil
  | cons c cs ih =>
    intro rem hinv hbound
    have hsplit : ∀ f, (rem f).map SRow.key
        = (c.filter (fun e => decide (e.2 = f))).map Prod.fst
          ++ (cs.flatten.filter (fun e => decide (e.2 = f))).map Prod.fst := by
      intro f
      rw [hinv f]
      simp [List.flatten_cons, List.filter_append]
    have hlen : ∀ f, countFile c f ≤ (rem f).length := by
      intro f
      have h2 := congrArg List.length (hsplit f)
      rw [List.length_map, List.length_append, List.length_map, List.length_map] at h2
      simp only [countFile]
      omega
    have hall : (filesOf c).all (fun f => decide (countFile c f ≤ (rem f).length)) = true := by
      rw [List.all_eq_true]
      intro f _
      exact decide_eq_true (hlen f)
    have hpull : pullChunk rem c = some (pulledRows rem c, remAfter rem c) := by
      rw [pullChunk, if_pos hall]
      rfl
    have htake : ∀ f, ((rem f).take (countFile c f)).map SRow.key
        = (c.filter (fun e => decide (e.2 = f))).map Prod.fst := by
      intro f
      rw [List.map_take, hsplit f]
      rw [show countFile c f = ((c.filter (fun e => decide (e.2 = f))).map Prod.fst).length by
        simp [countFile]]
      exact List.take_left _ _
    have hdrop : ∀ f, ((remAfter rem c) f).map SRow.key
        = (cs.flatten.filter (fun e => decide (e.2 = f))).map Prod.fst := by
      intro f
      rw [remAfter, List.map_drop, hsplit f]
      rw [show countFile c f = ((c.filter (fun e => decide (e.2 = f))).map Prod.fst).length by
        simp [countFile]]
      exact List.drop_left _ _
    obtain ⟨out, hcons, hlen2, hidx, hsort, hflat⟩ :=
      ih (remAfter rem c) hdrop
        (fun e he => hbound e (by
          simp only [List.flatten_cons, List.mem_append]
          exact Or.inr he))
    refine ⟨List.insertionSort keyLe (pulledRows rem c) :: out, ?_, ?_, ?_, ?_, ?_⟩
    · rw [consumeChunks_cons, hpull]
      dsimp only
      rw [hcons]
    · simp [hlen2]
    · intro i
      cases i with
      | zero =>
        simp only [List.getD_cons_zero]
        have hpk : (pulledRows rem c).map SRow.key
            = (((filesOf c).map (fun f => c.filter (fun e => decide (e.2 = f)))).flatten).map
                Prod.fst := by
          rw [pulledRows, List.map_flatten, List.map_flatten, List.map_map, List.map_map]
          congr 1
          apply List.map_congr_left
          intro f _
          simp only [Function.comp]
          exact htake f
        refine (((List.perm_insertionSort keyLe (pulledRows rem c)).map SRow.key).trans ?_)
        rw [hpk]
        exact (partition_perm c).map Prod.fst
      | succ j =>
        simp only [List.getD_cons_succ]
        exact hidx j
    · intro b hb
      rcases List.mem_cons.mp hb with hl | hr
      · rw [hl]
        exact List.sorted_insertionSort keyLe _
      · exact hsort b hr
    · have hsub : ∀ f ∈ filesOf c, f ∈ List.range K := by
        intro f hf
        simp only [filesOf, List.mem_dedup] at hf
        obtain ⟨e, he, rfl⟩ := List.mem_map.mp hf
        exact List.mem_range.mpr (hbound e (by
          simp only [List.flatten_cons, List.mem_append]
          exact Or.inl he))
      have hz : ∀ f ∈ List.range K, f ∉ filesOf c → (rem f).take (countFile c f) = [] := by
        intro f _ hf
        have hcf : countFile c f = 0 := by
          rw [countFile, List.length_eq_zero, List.filter_eq_nil_iff]
          intro e he hdec
          have hef : e.2 = f := of_decide_eq_true hdec
          exact hf (by
            simp only [filesOf, List.mem_dedup]
            exact hef ▸ List.mem_map_of_mem Prod.snd he)
        rw [hcf]
        rfl
      have hA : (pulledRows rem c).Perm
          (((List.range K).map (fun f => (rem f).take (countFile c f))).flatten) :=
        flatten_map_of_support _ (filesOf c) (List.range K)
          (List.nodup_dedup _) (List.nodup_range K) hsub hz
      have hTR : totalRem rem K = ((List.range K).map
          (fun f => (rem f).take (countFile c f) ++ (rem f).drop (countFile c f))).flatten := by
        rw [totalRem]
        congr 1
        apply List.map_congr_left
        intro f _
        exact (List.take_append_drop _ _).symm
      have hsplit2 := flatten_map_append_perm (fun f => (rem f).take (countFile c f))
        (fun f => (rem f).drop (countFile c f)) (List.range K)
      rw [List.flatten_cons, hTR]
      refine ((List.perm_insertionSort keyLe (pulledRows rem c)).append hflat).trans ?_
      refine ((hA.append_right _).trans ?_)
      exact hsplit2.symm

/-- Consumer correctness for any invariant-satisfying producer state with at least
one spill file: `done` succeeds, the output batches together hold exactly the spilled
rows, each batch is key-sorted, and adjacent batches do not overlap in key range. -/
theorem done_spec (B : Nat) (st : PState) (hB : 0 < B) (hpinv : PInv st)
    (hfne : st.files ≠ []) :
    ∃ out, done B st = .ok out ∧
      out.flatten.Perm st.files.flatten ∧
      (∀ b ∈ out, List.Sorted keyLe b) ∧
      List.Chain' (fun b1 b2 => ∀ r1 ∈ b1, ∀ r2 ∈ b2, r1.key ≤ r2.key) out := by
  have hemp : ¬ st.files.isEmpty = true := by
    simpa [List.isEmpty_iff] using hfne
  have hdone0 : done B st
      = match consumeChunks (fun f => st.files.getD f [])
          (chunksOf B (List.insertionSort entLe st.in_mem_state)) with
        | none => Except.error PyErr.mergeExhausted
        | some out => Except.ok out := by
    unfold done
    rw [if_neg hemp]
  have hcf : (chunksOf B (List.insertionSort entLe st.in_mem_state)).flatten
      = List.insertionSort entLe st.in_mem_state := chunksOf_flatten B hB _
  have hinv : ∀ f, (st.files.getD f []).map SRow.key
      = (((chunksOf B (List.insertionSort entLe st.in_mem_state)).flatten.filter
          (fun e => decide (e.2 = f))).map Prod.fst) := by
    intro f
    rw [hcf]
    exact (sortedIndex_filter st hpinv f).symm
  have hbound : ∀ e ∈ (chunksOf B (List.insertionSort entLe st.in_mem_state)).flatten,
      e.2 < st.files.length := by
    intro e he
    rw [hcf] at he
    exact hpinv.2.1 e ((List.perm_insertionSort entLe st.in_mem_state).mem_iff.mp he)
  obtain ⟨out, hcons, hlen2, hidx, hsort, hflat⟩ :=
    consumeChunks_spec st.files.length
      (chunksOf B (List.insertionSort entLe st.in_mem_state))
      (fun f => st.files.getD f []) hinv hbound
  have htr : totalRem (fun f => st.files.getD f []) st.files.length
      = st.files.flatten := by
    rw [totalRem]
    congr 1
    exact range_map_getD st.files []
  have hsi2 : List.Pairwise entLe
      ((chunksOf B (List.insertionSort entLe st.in_mem_state)).flatten) := by
    rw [hcf]
    exact List.sorted_insertionSort entLe st.in_mem_state
  have hchunks : (chunksOf B (List.insertionSort entLe st.in_mem_state)).Pairwise
      (fun l1 l2 => ∀ x ∈ l1, ∀ y ∈ l2, entLe x y) :=
    (List.pairwise_flatten.mp hsi2).2
  have hpw : out.Pairwise (fun b1 b2 => ∀ r1 ∈ b1, ∀ r2 ∈ b2, r1.key ≤ r2.key) := by
    rw [List.pairwise_iff_getElem]
    intro i j hi hj hij
    intro r1 hr1 r2 hr2
    have hi2 : i < (chunksOf B (List.insertionSort entLe st.in_mem_state)).length := by
      rw [← hlen2]
      exact hi
    have hj2 : j < (chunksOf B (List.insertionSort entLe st.in_mem_state)).length := by
      rw [← hlen2]
      exact hj
    have h1 : r1.key ∈ ((chunksOf B (List.insertionSort entLe st.in_mem_state)).getD
        i []).map Prod.fst := by
      refine (hidx i).mem_iff.mp ?_
      rw [List.getD_eq_getElem _ _ hi]
      exact List.mem_map_of_mem SRow.key hr1
    have h2 : r2.key ∈ ((chunksOf B (List.insertionSort entLe st.in_mem_state)).getD
        j []).map Prod.fst := by
      refine (hidx j).mem_iff.mp ?_
      rw [List.getD_eq_getElem _ _ hj]
      exact List.mem_map_of_mem SRow.key hr2
    rw [List.getD_eq_getElem _ _ hi2] at h1
    rw [List.getD_eq_getElem _ _ hj2] at h2
    obtain ⟨e1, he1, hk1⟩ := List.mem_map.mp h1
    obtain ⟨e2, he2, hk2⟩ := List.mem_map.mp h2
    have hee := (List.pairwise_iff_getElem.mp hchunks) i j hi2 hj2 hij e1 he1 e2 he2
    rw [← hk1, ← hk2]
    exact hee
  refine ⟨out, ?_, ?_, hsort, hpw.chain'⟩
  · rw [hdone0, hcons]
  · rw [htr] at hflat
    exact hflat

/-- Claim C1: feeding any batch sequence to the merge-sort producer and then running
the consumer yields output batches whose rows together are a permutation of the input
rows, each batch individually sorted ascending by the sort key, and every key of
batch `i` at most every key of batch `i+1` (stated with the modeling side conditions
that the configured output batch row count is positive and that at least one input
row arrived; the no-input case raises and is the subject of claim C3). -/
theorem c1_superFastSort (B : Nat) (calls : List (List (Option (List SRow))))
    (hB : 0 < B) (hne : allInputRows calls ≠ []) :
    ∃ out, done B (runProducer calls) = .ok out ∧
      out.flatten.Perm (allInputRows calls) ∧
      (∀ b ∈ out, List.Sorted keyLe b) ∧
      List.Chain' (fun b1 b2 => ∀ r1 ∈ b1, ∀ r2 ∈ b2, r1.key ≤ r2.key) out := by
  have hpinv := pinv_runProducer calls
  have hperm := runProducer_files_perm calls
  have hfne : (runProducer calls).files ≠ [] := by
    intro hempf
    rw [hempf] at hperm
    simp only [List.flatten_nil] at hperm
    exact hne hperm.symm.eq_nil
  obtain ⟨out, hdone, hflatp, hsort, hchain⟩ :=
    done_spec B (runProducer calls) hB hpinv hfne
  exact ⟨out, hdone, hflatp.trans hperm, hsort, hchain⟩

theorem c1_superFastSort_witness :
    (0 < 2 ∧ allInputRows [[some [(⟨3, 0⟩ : SRow), ⟨1, 1⟩]], [some [⟨2, 2⟩]]] ≠ []) ∧
    ∃ out, done 2 (runProducer [[some [(⟨3, 0⟩ : SRow), ⟨1, 1⟩]], [some [⟨2, 2⟩]]])
        = .ok out ∧
      out.flatten.Perm (allInputRows [[some [(⟨3, 0⟩ : SRow), ⟨1, 1⟩]], [some [⟨2, 2⟩]]]) ∧
      (∀ b ∈ out, List.Sorted keyLe b) ∧
      List.Chain' (fun b1 b2 => ∀ r1 ∈ b1, ∀ r2 ∈ b2, r1.key ≤ r2.key) out :=
  ⟨⟨by decide, by decide⟩,
    c1_superFastSort 2 [[some [(⟨3, 0⟩ : SRow), ⟨1, 1⟩]], [some [⟨2, 2⟩]]]
      (by decide) (by decide)⟩

end SuperFastSortExecutor

/-- Claim C3 (code bug): with no prior input, `done` does not return an explicit
no-result value for these three executors — `OutputExecutor.done` raises
`ValueError` from `pa.concat_tables([])`, `SortedAsofExecutor.done` raises
`AttributeError` from `None.join_asof`, and `SuperFastSortExecutor.done` raises
`AttributeError` from `None.sort`. -/
theorem c3_done_empty_raises :
    OutputExecutor.done 1000000 "part" "parquet" (OutputExecutor.initState Nat) 0
        = .error .valueError ∧
    SortedAsofExecutor.done SortedAsofExecutor.initState = .error .attributeError ∧
    SuperFastSortExecutor.done 1000000 SuperFastSortExecutor.initState
        = .error .attributeError :=
  ⟨rfl, rfl, rfl⟩


end Quokka
